import Mathlib

/-!
# Verification of the AA-tree `Map` (CustomDS)

A shallow embedding of the AA-tree based ordered map implemented in the
repository's `Map` class template.  The C++ structure is a binary tree whose
nodes carry a key, a mapped value, a balance level and mutable child/parent
pointers; the container additionally caches a pointer to the minimum node
(`b_iter_`), an element count (`size_`) and a stateless comparator.

The embedding represents the pointer tree as an inductive tree whose nodes
carry a node identity (`id`, standing for the node's address: fresh at each
allocation, preserved by pointer surgery), and represents the parent-pointer
walks of `insert` and `erase` as walks over a zipper (a list of `Frame`s,
innermost frame first), which is exactly the information carried by the
parent back-pointers of a well-formed tree.  The comparator (`lt`) and the
key `operator==` used by `insert` (`beq`) are explicit parameters, mirroring
the class template parameters.  `size_type` (unsigned 64-bit) subtraction is
modelled by `usub`, which wraps modulo `2 ^ 64` exactly as the source's
unsigned arithmetic does.
-/

namespace AA

/-- Which child of its parent a node is (direction of a zipper hole). -/
inductive Dir : Type where
  | l : Dir
  | r : Dir
deriving DecidableEq, Repr

/-- Payload of one tree node: the node identity (address), the key, the
mapped value and the AA level, mirroring `Map::Node` (children and parent are
represented structurally / by the zipper). -/
structure ND (K V : Type) : Type where
  id : Nat
  key : K
  val : V
  level : Nat
deriving DecidableEq, Repr

/-- The pointer tree of `Map`: `nil` is a null child pointer. -/
inductive Tree (K V : Type) : Type where
  | nil : Tree K V
  | node (l : Tree K V) (d : ND K V) (r : Tree K V) : Tree K V
deriving DecidableEq, Repr

/-- One step of parent context: the parent node's payload, which side the
hole is on (`dir`), and the sibling subtree. -/
structure Frame (K V : Type) : Type where
  dir : Dir
  d : ND K V
  sib : Tree K V
deriving DecidableEq, Repr

/-- Rebuild one level: put subtree `t` back into the hole of frame `f`. -/
def plug {K V : Type} (f : Frame K V) (t : Tree K V) : Tree K V :=
  match f.dir with
  | Dir.l => Tree.node t f.d f.sib
  | Dir.r => Tree.node f.sib f.d t

/-- Rebuild the whole tree from a zipper (innermost frame first). -/
def plugAll {K V : Type} : List (Frame K V) → Tree K V → Tree K V
  | [], t => t
  | f :: fs, t => plugAll fs (plug f t)

/-- In-order list of node payloads. -/
def entries {K V : Type} : Tree K V → List (ND K V)
  | Tree.nil => []
  | Tree.node l d r => entries l ++ d :: entries r

/-- In-order list of `(id, key, value)` triples (levels dropped): the store
contents, invariant under the level surgery of rebalancing. -/
def items {K V : Type} (t : Tree K V) : List (Nat × K × V) :=
  (entries t).map (fun d => (d.id, d.key, d.val))

/-- In-order list of keys. -/
def keys {K V : Type} (t : Tree K V) : List K :=
  (entries t).map ND.key

/-- Number of nodes. -/
def treeSize {K V : Type} : Tree K V → Nat
  | Tree.nil => 0
  | Tree.node l _ r => treeSize l + treeSize r + 1

/-- Payload of the leftmost node (`Map::beginNode`), `none` on the empty
tree. -/
def leftmost {K V : Type} : Tree K V → Option (ND K V)
  | Tree.nil => none
  | Tree.node Tree.nil d _ => some d
  | Tree.node (Tree.node ll ld lr) _ _ => leftmost (Tree.node ll ld lr)

/-- Key of the node whose address (`id`) is `i`, if any: reading through a
stored node pointer. -/
def keyOfId {K V : Type} (t : Tree K V) (i : Nat) : Option K :=
  ((entries t).find? (fun d => d.id == i)).map ND.key

/-- Unsigned 64-bit subtraction (`size_type` is `std::size_t`): wraps
modulo `2 ^ 64` exactly like the source's unsigned `-` and `--`. -/
def usub (a b : Nat) : Nat :=
  (2 ^ 64 + a - b) % 2 ^ 64

/-- The whole container state: root tree, cached minimum pointer
(`b_iter_`, an `id` or null), element count (`size_`) and the next fresh
node address.  The comparator is stateless and passed to each operation. -/
structure MapS (K V : Type) : Type where
  root : Tree K V
  bIter : Option Nat
  size : Nat
  nextId : Nat
deriving DecidableEq, Repr

/-- The default-constructed map. -/
def mapEmpty {K V : Type} : MapS K V :=
  { root := Tree.nil, bIter := none, size := 0, nextId := 0 }

/-- `Map::skew` acting on the subtree rooted at the argument node: if the
left child exists and has the node's level, rotate right (the left child
becomes the subtree root, the node its right child, the left child's former
right subtree the node's new left subtree); otherwise return the subtree
unchanged.  Reattachment to the parent (and the root update) is performed by
the caller's zipper. -/
def skewT {K V : Type} : Tree K V → Tree K V
  | Tree.nil => Tree.nil
  | Tree.node l d r =>
    match l with
    | Tree.nil => Tree.node l d r
    | Tree.node ll ld lr =>
      if d.level == ld.level then
        Tree.node ll ld (Tree.node lr d r)
      else
        Tree.node l d r

/-- `Map::split` acting on the subtree rooted at the argument node: if the
right child and its own right child exist and the latter has the node's
level, rotate left (the right child becomes the subtree root with its level
incremented, the node its left child, the right child's former left subtree
the node's new right subtree); otherwise return the subtree unchanged. -/
def splitT {K V : Type} : Tree K V → Tree K V
  | Tree.nil => Tree.nil
  | Tree.node l d r =>
    match r with
    | Tree.nil => Tree.node l d r
    | Tree.node rl rd rr =>
      match rr with
      | Tree.nil => Tree.node l d r
      | Tree.node rrl rrd rrr =>
        if d.level == rrd.level then
          Tree.node (Tree.node l d rl) { rd with level := rd.level + 1 }
            (Tree.node rrl rrd rrr)
        else
          Tree.node l d r

/-- `Map::decreaseNodeLevel`: with a missing child counting as diff
`node->level` (as in the source), if either child is more than one level
below the node, decrement the node's level — first also decrementing the
right child's level when it equals the node's (pre-decrement) level.  The
unsigned differences and decrements wrap modulo `2 ^ 64` (`usub`). -/
def decreaseNodeLevel {K V : Type} : Tree K V → Tree K V
  | Tree.nil => Tree.nil
  | Tree.node l d r =>
    let left_diff : Nat :=
      match l with
      | Tree.nil => d.level
      | Tree.node _ ld _ => usub d.level ld.level
    let right_diff : Nat :=
      match r with
      | Tree.nil => d.level
      | Tree.node _ rd _ => usub d.level rd.level
    if 1 < left_diff || 1 < right_diff then
      let r' : Tree K V :=
        match r with
        | Tree.nil => Tree.nil
        | Tree.node rl rd rr =>
          if rd.level == d.level then
            Tree.node rl { rd with level := usub rd.level 1 } rr
          else
            Tree.node rl rd rr
      Tree.node l { d with level := usub d.level 1 } r'
    else
      Tree.node l d r

/-- `skew` applied in place to the right child (`skew(node->right)` guarded
by a null check; `skewT` fixes `nil`, so the guard is implicit). -/
def skewRight {K V : Type} : Tree K V → Tree K V
  | Tree.nil => Tree.nil
  | Tree.node l d r => Tree.node l d (skewT r)

/-- `skew` applied in place to the right child's right child
(`skew(node->right->right)`, read after the right child was skewed). -/
def skewRightRight {K V : Type} : Tree K V → Tree K V
  | Tree.nil => Tree.nil
  | Tree.node l d r => Tree.node l d (skewRight r)

/-- `split` applied in place to the right child (`split(node->right)`). -/
def splitRight {K V : Type} : Tree K V → Tree K V
  | Tree.nil => Tree.nil
  | Tree.node l d r => Tree.node l d (splitT r)

/-- The rotation block of `Map::erase`'s upward walk, run when the level
changed: `rebalance_node = skew(rebalance_node); if (right) { skew(right);
if (right->right) skew(right->right); } rebalance_node =
split(rebalance_node); if (right) split(right);` with the child rotations
reattached in place. -/
def eraseRots {K V : Type} (t : Tree K V) : Tree K V :=
  splitRight (splitT (skewRightRight (skewRight (skewT t))))

/-- The level stored at the root of a subtree (`node->level`; 0 for null,
which never occurs at the walks' call sites). -/
def levelOf {K V : Type} : Tree K V → Nat
  | Tree.nil => 0
  | Tree.node _ d _ => d.level

/-- The upward walk of `Map::erase`: starting at the spliced position's
parent (root of `t`, context `ctx`), recompute the level
(`decreaseNodeLevel`); if it changed, run the rotation block and move to the
parent; stop as soon as a level does not change (the loop's
`is_level_changed` guard). -/
def eraseFix {K V : Type} : List (Frame K V) → Tree K V → Tree K V
  | ctx, t =>
    if levelOf (decreaseNodeLevel t) == levelOf t then
      plugAll ctx (decreaseNodeLevel t)
    else
      match ctx with
      | [] => eraseRots (decreaseNodeLevel t)
      | f :: fs => eraseFix fs (plug f (eraseRots (decreaseNodeLevel t)))

/-- One `skew(rebalance_node)` of `Map::insert`'s walk, in pointer terms:
the walked node stays the same node object, so when the rotation fires the
new subtree root becomes part of the zipper context and the current subtree
becomes the walked node with its new left child.  Returns the new context,
the new current subtree, and whether the tree changed
(`rebalance_node != skew(rebalance_node)`). -/
def insSkewStep {K V : Type} (ctx : List (Frame K V)) (t : Tree K V) :
    List (Frame K V) × Tree K V × Bool :=
  match t with
  | Tree.nil => (ctx, t, false)
  | Tree.node l d r =>
    match l with
    | Tree.nil => (ctx, Tree.node l d r, false)
    | Tree.node ll ld lr =>
      if d.level == ld.level then
        (⟨Dir.r, ld, ll⟩ :: ctx, Tree.node lr d r, true)
      else
        (ctx, Tree.node l d r, false)

/-- One `split(rebalance_node)` of `Map::insert`'s walk, in pointer terms
(see `insSkewStep`): when the rotation fires, the promoted right child (its
level incremented) becomes part of the zipper context and the walked node,
with its new right child, is the current subtree. -/
def insSplitStep {K V : Type} (ctx : List (Frame K V)) (t : Tree K V) :
    List (Frame K V) × Tree K V × Bool :=
  match t with
  | Tree.nil => (ctx, t, false)
  | Tree.node l d r =>
    match r with
    | Tree.nil => (ctx, Tree.node l d r, false)
    | Tree.node rl rd rr =>
      match rr with
      | Tree.nil => (ctx, Tree.node l d r, false)
      | Tree.node _ rrd _ =>
        if d.level == rrd.level then
          (⟨Dir.l, { rd with level := rd.level + 1 }, rr⟩ :: ctx,
            Tree.node l d rl, true)
        else
          (ctx, Tree.node l d r, false)

/-- One body of `Map::insert`'s walk: `is_tree_changed = rebalance_node !=
skew(rebalance_node); is_tree_changed = is_tree_changed || rebalance_node !=
split(rebalance_node);` — by the short-circuit `||`, `split` runs only when
`skew` left the node unchanged. -/
def insStep {K V : Type} (ctx : List (Frame K V)) (t : Tree K V) :
    List (Frame K V) × Tree K V × Bool :=
  match insSkewStep ctx t with
  | (ctx1, t1, true) => (ctx1, t1, true)
  | (ctx1, t1, false) => insSplitStep ctx1 t1

/-- The upward walk of `Map::insert`: while the walked node exists and fewer
than three consecutive nodes were left unchanged, run `insStep` at the node,
then move to the node's (possibly new, post-rotation) parent.  The walk of
the source always terminates; the model carries explicit fuel, and every
caller passes fuel exceeding the walk's length on trees satisfying the
container invariants. -/
def insFix {K V : Type} : Nat → List (Frame K V) → Tree K V → Nat → Tree K V
  | 0, ctx, t, _ => plugAll ctx t
  | fuel + 1, ctx, t, u =>
    if 3 ≤ u then
      plugAll ctx t
    else
      match insStep ctx t with
      | (ctx2, t2, changed) =>
        match ctx2 with
        | [] => t2
        | f :: fs =>
          insFix fuel fs (plug f t2) (if changed then 0 else u + 1)

/-- `Map::findNode`: descend from the root; stop at the first node whose key
is equivalent to the searched key under the comparator (neither is less than
the other), descending left when the searched key is less and right
otherwise; `none` when a null pointer is reached. -/
def findNodeE {K V : Type} (lt : K → K → Bool) :
    Tree K V → K → Option (ND K V)
  | Tree.nil, _ => none
  | Tree.node l d r, sk =>
    if !lt d.key sk && !lt sk d.key then
      some d
    else if lt sk d.key then
      findNodeE lt l sk
    else
      findNodeE lt r sk

/-- `Map::findNode`, with the zipper of the found node (used by `erase`). -/
def findNodeZ {K V : Type} (lt : K → K → Bool) :
    Tree K V → K → List (Frame K V) → Option (List (Frame K V) × Tree K V)
  | Tree.nil, _, _ => none
  | Tree.node l d r, sk, ctx =>
    if !lt d.key sk && !lt sk d.key then
      some (ctx, Tree.node l d r)
    else if lt sk d.key then
      findNodeZ lt l sk (⟨Dir.l, d, r⟩ :: ctx)
    else
      findNodeZ lt r sk (⟨Dir.r, d, l⟩ :: ctx)

/-- The loop of `Map::findParent`: descend as in `findNode`, but stop (with
flag `false`) at the last node before a null pointer would be reached; the
flag is `true` when the stop node's key is equivalent to the searched key.
`none` on the empty tree. -/
def findParentAux {K V : Type} (lt : K → K → Bool) :
    Tree K V → K → List (Frame K V) →
    Option (List (Frame K V) × Tree K V × Bool)
  | Tree.nil, _, _ => none
  | Tree.node l d r, sk, ctx =>
    if !lt d.key sk && !lt sk d.key then
      some (ctx, Tree.node l d r, true)
    else if lt sk d.key then
      match l with
      | Tree.nil => some (ctx, Tree.node l d r, false)
      | Tree.node ll ld lr =>
        findParentAux lt (Tree.node ll ld lr) sk (⟨Dir.l, d, r⟩ :: ctx)
    else
      match r with
      | Tree.nil => some (ctx, Tree.node l d r, false)
      | Tree.node rl rd rr =>
        findParentAux lt (Tree.node rl rd rr) sk (⟨Dir.r, d, l⟩ :: ctx)

/-- `Map::findParent`: the node containing an equivalent key if one exists,
otherwise the would-be parent of the searched key — except that a map whose
`size_` is zero reports no parent (the source's `size_ == 0` check). -/
def findParentZ {K V : Type} (lt : K → K → Bool) (m : MapS K V) (k : K) :
    Option (List (Frame K V) × Tree K V) :=
  match findParentAux lt m.root k [] with
  | none => none
  | some (ctx, t, true) => some (ctx, t)
  | some (ctx, t, false) => if m.size == 0 then none else some (ctx, t)

/-- Fuel passed to `insFix`; ample for every tree satisfying the container
invariants (the source's loop needs no fuel because rebalancing is
self-limiting there). -/
def insFuel {K V : Type} (m : MapS K V) : Nat :=
  4 * treeSize m.root + 16

/-- `Map::insert` (the `const_reference` overload, which the rvalue overload
repeats verbatim): find the parent; if it holds an `operator==`-equal key,
return it with `inserted = false`; otherwise allocate a level-1 leaf,
update `size_` and `b_iter_`, link the leaf left or right per the
comparator, run the upward walk (starting at the parent for a left link,
at the grandparent for a right link), and return the new node with
`inserted = true`.  The returned `Nat` is the handle's node identity. -/
def insert {K V : Type} (lt beq : K → K → Bool) (m : MapS K V) (k : K)
    (v : V) : MapS K V × Nat × Bool :=
  match findParentZ lt m k with
  | none =>
    ({ root := Tree.node Tree.nil ⟨m.nextId, k, v, 1⟩ Tree.nil,
       bIter := some m.nextId, size := (m.size + 1) % 2 ^ 64,
       nextId := m.nextId + 1 }, m.nextId, true)
  | some (ctx, t) =>
    match t with
    | Tree.nil => (m, 0, false)
    | Tree.node l d r =>
      if beq d.key k then
        (m, d.id, false)
      else
        let leaf : Tree K V := Tree.node Tree.nil ⟨m.nextId, k, v, 1⟩ Tree.nil
        let bIter' : Option Nat :=
          match m.bIter with
          | none => m.bIter
          | some i =>
            match keyOfId m.root i with
            | none => m.bIter
            | some bk => if lt k bk then some m.nextId else m.bIter
        let root' : Tree K V :=
          if lt k d.key then
            insFix (insFuel m) ctx (Tree.node leaf d r) 0
          else
            match ctx with
            | [] => Tree.node l d leaf
            | f :: fs => insFix (insFuel m) fs (plug f (Tree.node l d leaf)) 0
        ({ root := root', bIter := bIter', size := (m.size + 1) % 2 ^ 64,
           nextId := m.nextId + 1 }, m.nextId, true)

/-- Zipper descent to the leftmost node of the nonempty tree
`Tree.node l d r` (frames accumulated innermost first): returns the
accumulated frames, the leftmost node's payload, and its right subtree. -/
def leftmostZ {K V : Type} : Tree K V → ND K V → Tree K V →
    List (Frame K V) → List (Frame K V) × ND K V × Tree K V
  | Tree.nil, d, r, acc => (acc, d, r)
  | Tree.node ll ld lr, d, r, acc =>
    leftmostZ ll ld lr (⟨Dir.l, d, r⟩ :: acc)

/-- `Map::trivialNodeErase` followed by the upward walk, as called by
`erase` for a node with at most one child: splice `child` into the node's
position, advance `b_iter_` past the node if it pointed there (in the
source, `++b_iter_` runs after the splice, so it yields the leftmost node of
the erased node's right subtree when that exists and otherwise the erased
node's parent), decrement `size_`, and rebalance upward from the parent. -/
def eraseTrivial {K V : Type} (m : MapS K V) (ctx : List (Frame K V))
    (d : ND K V) (rsub child : Tree K V) : MapS K V :=
  let bIter' : Option Nat :=
    if m.bIter == some d.id then
      match rsub with
      | Tree.nil =>
        match ctx with
        | [] => none
        | f :: _ => some f.d.id
      | Tree.node rl rd rr =>
        match leftmost (Tree.node rl rd rr) with
        | none => none
        | some md => some md.id
    else
      m.bIter
  let size' := usub m.size 1
  match ctx with
  | [] => { m with root := child, bIter := bIter', size := size' }
  | f :: fs =>
    { m with
      root := eraseFix fs (plug f child)
      bIter := bIter'
      size := size' }

/-- `Map::erase`: a no-op on an empty root or an absent key.  Otherwise, a
node with at most one child is spliced out by `trivialNodeErase`; a node
with two children is erased by splicing out the in-order successor (the
leftmost node of the right subtree) using its right child, then swapping the
key/value pair pointers of the two nodes and assigning the successor pair's
mapped value from the erased pair's (the source's `std::swap` followed by
`current_node->value->second = std::move(next_node->value->second)`), so the
retained node ends up holding the successor's key and the erased key's
value.  Both paths then run the upward level-repair walk. -/
def erase {K V : Type} (lt : K → K → Bool) (m : MapS K V) (k : K) :
    MapS K V :=
  match m.root with
  | Tree.nil => m
  | Tree.node _ _ _ =>
    match findNodeZ lt m.root k [] with
    | none => m
    | some (ctx, t) =>
      match t with
      | Tree.nil => m
      | Tree.node l d r =>
        match l, r with
        | Tree.nil, Tree.nil => eraseTrivial m ctx d r Tree.nil
        | Tree.node cl cd cr, Tree.nil =>
          eraseTrivial m ctx d Tree.nil (Tree.node cl cd cr)
        | Tree.nil, Tree.node cl cd cr =>
          eraseTrivial m ctx d (Tree.node cl cd cr) (Tree.node cl cd cr)
        | Tree.node ll lld llr, Tree.node rl rd rr =>
          let lsub : Tree K V := Tree.node ll lld llr
          let z := leftmostZ rl rd rr []
          let size' := usub m.size 1
          let d' : ND K V := ⟨d.id, z.2.1.key, d.val, d.level⟩
          match z.1 with
          | [] =>
            { m with
              root := eraseFix ctx (Tree.node lsub d' z.2.2)
              size := size' }
          | f :: fs =>
            { m with
              root :=
                eraseFix (fs ++ ⟨Dir.r, d', lsub⟩ :: ctx) (plug f z.2.2),
              size := size' }

/-- The copy of a tree made by `Node`'s copy constructor: same shape, keys,
values and levels, freshly allocated nodes (ids drawn from a counter). -/
def copyTree {K V : Type} : Tree K V → Nat → Tree K V × Nat
  | Tree.nil, n => (Tree.nil, n)
  | Tree.node l d r, n =>
    let lc := copyTree l (n + 1)
    let rc := copyTree r lc.2
    (Tree.node lc.1 ⟨n, d.key, d.val, d.level⟩ rc.1, rc.2)

/-- `Map`'s copy constructor: deep-copy the tree, recompute `b_iter_` as the
leftmost node of the copy, copy `size_`. -/
def copyMap {K V : Type} (m : MapS K V) : MapS K V :=
  let c := copyTree m.root 0
  { root := c.1, bIter := (leftmost c.1).map ND.id, size := m.size,
    nextId := c.2 }

/-- `Map`'s move constructor: steal root, `b_iter_` and `size_`; the source
is left empty.  Returns (destination, emptied source). -/
def moveMap {K V : Type} (m : MapS K V) : MapS K V × MapS K V :=
  ({ root := m.root, bIter := m.bIter, size := m.size, nextId := m.nextId },
    { root := Tree.nil, bIter := none, size := 0, nextId := m.nextId })

/-- The comparator used to instantiate the theorems: the strict order of a
linearly ordered key type (`Compare`). -/
def ltd {K : Type} [LinearOrder K] : K → K → Bool :=
  fun a b => decide (a < b)

/-- The key `operator==` used to instantiate the theorems: structural
equality. -/
def beqd {K : Type} [DecidableEq K] : K → K → Bool :=
  fun a b => decide (a = b)

/-- The keys of an in-order walk are strictly increasing: the BST-order
invariant of §3. -/
def Sorted {K V : Type} [LinearOrder K] (t : Tree K V) : Prop :=
  List.Pairwise (fun a b => a < b) (keys t)

/-- The container invariant tying the cached minimum, the node identities,
the element count and the BST order together: the in-order key sequence is
strictly increasing, `b_iter_` is the leftmost (first in-order) node or null
iff the tree is empty, node identities are pairwise distinct, every identity
is below the allocation counter, and `size_` counts the nodes. -/
def Inv {K V : Type} [LinearOrder K] (m : MapS K V) : Prop :=
  Sorted m.root ∧
  m.bIter = ((entries m.root).head?).map ND.id ∧
  ((entries m.root).map ND.id).Nodup ∧
  (∀ d ∈ entries m.root, d.id < m.nextId) ∧
  m.size = (entries m.root).length % 2 ^ 64

/-- The maps produced from a default-constructed map by the completed
operations of the public interface (insert, erase, copy construction, move
construction), with the comparator of a linear order and structural key
equality. -/
inductive Reachable {K V : Type} [LinearOrder K] : MapS K V → Prop where
  | empty : Reachable mapEmpty
  | ins (m : MapS K V) (k : K) (v : V) : Reachable m →
      Reachable (insert ltd beqd m k v).1
  | del (m : MapS K V) (k : K) : Reachable m → Reachable (erase ltd m k)
  | copy (m : MapS K V) : Reachable m → Reachable (copyMap m)
  | mvDst (m : MapS K V) : Reachable m → Reachable (moveMap m).1
  | mvSrc (m : MapS K V) : Reachable m → Reachable (moveMap m).2

/-! ## In-order decomposition of zippers

`entries (plugAll ctx t)` splits as a context prefix, `entries t`, and a
context suffix; all structural surgery below is reasoned about through this
linearisation. -/

/-- In-order context prefix contributed by a zipper. -/
def ctxPre {K V : Type} : List (Frame K V) → List (ND K V)
  | [] => []
  | f :: fs =>
    ctxPre fs ++
      (match f.dir with
       | Dir.l => []
       | Dir.r => entries f.sib ++ [f.d])

/-- In-order context suffix contributed by a zipper. -/
def ctxPost {K V : Type} : List (Frame K V) → List (ND K V)
  | [] => []
  | f :: fs =>
    (match f.dir with
     | Dir.l => f.d :: entries f.sib
     | Dir.r => []) ++ ctxPost fs

theorem entries_plug {K V : Type} (f : Frame K V) (t : Tree K V) :
    entries (plug f t) =
      (match f.dir with
       | Dir.l => []
       | Dir.r => entries f.sib ++ [f.d]) ++ entries t ++
      (match f.dir with
       | Dir.l => f.d :: entries f.sib
       | Dir.r => []) := by
  cases f with
  | mk dir d sib => cases dir <;> simp [plug, entries]

theorem entries_plugAll {K V : Type} (ctx : List (Frame K V)) :
    ∀ t : Tree K V,
      entries (plugAll ctx t) = ctxPre ctx ++ entries t ++ ctxPost ctx := by
  induction ctx with
  | nil => intro t; simp [plugAll, ctxPre, ctxPost]
  | cons f fs ih =>
    intro t
    cases f with
    | mk dir d sib =>
      cases dir <;>
        simp [plugAll, ih, entries_plug, ctxPre, ctxPost, entries,
          List.append_assoc]

theorem plugAll_append {K V : Type} (xs ys : List (Frame K V))
    (t : Tree K V) : plugAll (xs ++ ys) t = plugAll ys (plugAll xs t) := by
  induction xs generalizing t with
  | nil => simp [plugAll]
  | cons f fs ih => simp [plugAll, ih]

/-- Strip a payload to its store content (identity, key, value). -/
def strip {K V : Type} (d : ND K V) : Nat × K × V :=
  (d.id, d.key, d.val)

theorem items_def {K V : Type} (t : Tree K V) :
    items t = (entries t).map strip := by
  rfl

theorem items_node {K V : Type} (l : Tree K V) (d : ND K V) (r : Tree K V) :
    items (Tree.node l d r) = items l ++ strip d :: items r := by
  simp [items, entries, strip]

theorem keys_node {K V : Type} (l : Tree K V) (d : ND K V) (r : Tree K V) :
    keys (Tree.node l d r) = keys l ++ d.key :: keys r := by
  simp [keys, entries]

theorem keys_eq_items {K V : Type} (t : Tree K V) :
    keys t = (items t).map (fun e => e.2.1) := by
  simp [keys, items, strip, Function.comp]

/-! ## Rebalancing primitives preserve the store -/

theorem items_skewT {K V : Type} (t : Tree K V) : items (skewT t) = items t := by
  cases t with
  | nil => rfl
  | node l d r =>
    cases l with
    | nil => rfl
    | node ll ld lr =>
      simp only [skewT]
      by_cases h : d.level == ld.level
      · simp [h, items, entries]
      · simp [h]

theorem items_splitT {K V : Type} (t : Tree K V) :
    items (splitT t) = items t := by
  cases t with
  | nil => rfl
  | node l d r =>
    cases r with
    | nil => rfl
    | node rl rd rr =>
      cases rr with
      | nil => rfl
      | node rrl rrd rrr =>
        simp only [splitT]
        by_cases h : d.level == rrd.level
        · simp [h, items, entries, strip]
        · simp [h]

theorem items_decreaseNodeLevel {K V : Type} (t : Tree K V) :
    items (decreaseNodeLevel t) = items t := by
  cases t with
  | nil => rfl
  | node l d r =>
    simp only [decreaseNodeLevel]
    by_cases h : (1 < match l with
      | Tree.nil => d.level
      | Tree.node _ ld _ => usub d.level ld.level) ||
        (1 < match r with
          | Tree.nil => d.level
          | Tree.node _ rd _ => usub d.level rd.level)
    · simp only [h, if_true]
      cases r with
      | nil => simp [items, entries, strip]
      | node rl rd rr =>
        by_cases h2 : rd.level == d.level <;>
          simp [h2, items, entries, strip]
    · simp [h]

theorem items_skewRight {K V : Type} (t : Tree K V) :
    items (skewRight t) = items t := by
  cases t with
  | nil => rfl
  | node l d r => simp [skewRight, items_node, items_skewT]

theorem items_skewRightRight {K V : Type} (t : Tree K V) :
    items (skewRightRight t) = items t := by
  cases t with
  | nil => rfl
  | node l d r => simp [skewRightRight, items_node, items_skewRight]

theorem items_splitRight {K V : Type} (t : Tree K V) :
    items (splitRight t) = items t := by
  cases t with
  | nil => rfl
  | node l d r => simp [splitRight, items_node, items_splitT]

theorem items_eraseRots {K V : Type} (t : Tree K V) :
    items (eraseRots t) = items t := by
  simp [eraseRots, items_splitRight, items_splitT, items_skewRightRight,
    items_skewRight, items_skewT]

theorem items_plugAll {K V : Type} (ctx : List (Frame K V)) (t : Tree K V) :
    items (plugAll ctx t) =
      (ctxPre ctx).map strip ++ items t ++ (ctxPost ctx).map strip := by
  simp [items_def, entries_plugAll]

theorem items_plugAll_congr {K V : Type} (ctx : List (Frame K V))
    (t t' : Tree K V) (h : items t' = items t) :
    items (plugAll ctx t') = items (plugAll ctx t) := by
  simp [items_plugAll, h]

/-! ## The upward walks preserve the store -/

theorem insSkewStep_plugAll {K V : Type} (ctx : List (Frame K V))
    (t : Tree K V) :
    plugAll (insSkewStep ctx t).1 (insSkewStep ctx t).2.1 =
      plugAll ctx (skewT t) := by
  cases t with
  | nil => rfl
  | node l d r =>
    cases l with
    | nil => rfl
    | node ll ld lr =>
      simp only [insSkewStep, skewT]
      by_cases h : d.level == ld.level
      · simp [h, plugAll, plug]
      · simp [h]

theorem insSplitStep_plugAll {K V : Type} (ctx : List (Frame K V))
    (t : Tree K V) :
    plugAll (insSplitStep ctx t).1 (insSplitStep ctx t).2.1 =
      plugAll ctx (splitT t) := by
  cases t with
  | nil => rfl
  | node l d r =>
    cases r with
    | nil => rfl
    | node rl rd rr =>
      cases rr with
      | nil => rfl
      | node rrl rrd rrr =>
        simp only [insSplitStep, splitT]
        by_cases h : d.level == rrd.level
        · simp [h, plugAll, plug]
        · simp [h]

theorem insStep_items {K V : Type} (ctx : List (Frame K V)) (t : Tree K V) :
    items (plugAll (insStep ctx t).1 (insStep ctx t).2.1) =
      items (plugAll ctx t) := by
  rw [insStep]
  rcases h1 : insSkewStep ctx t with ⟨ctx1, t1, b1⟩
  have hs : plugAll ctx1 t1 = plugAll ctx (skewT t) := by
    have := insSkewStep_plugAll ctx t
    rw [h1] at this; exact this
  cases b1 with
  | true =>
    simp only []
    rw [hs]
    exact items_plugAll_congr ctx t (skewT t) (items_skewT t)
  | false =>
    simp only []
    have h2 := insSplitStep_plugAll ctx1 t1
    rw [h2]
    calc items (plugAll ctx1 (splitT t1))
        = items (plugAll ctx1 t1) :=
          items_plugAll_congr ctx1 t1 (splitT t1) (items_splitT t1)
      _ = items (plugAll ctx (skewT t)) := by rw [hs]
      _ = items (plugAll ctx t) :=
          items_plugAll_congr ctx t (skewT t) (items_skewT t)

theorem items_insFix {K V : Type} :
    ∀ (fuel : Nat) (ctx : List (Frame K V)) (t : Tree K V) (u : Nat),
      items (insFix fuel ctx t u) = items (plugAll ctx t) := by
  intro fuel
  induction fuel with
  | zero => intro ctx t u; rfl
  | succ n ih =>
    intro ctx t u
    rw [insFix]
    by_cases hu : 3 ≤ u
    · simp [hu]
    · simp only [hu, if_false]
      rcases h : insStep ctx t with ⟨ctx2, t2, ch⟩
      have hit : items (plugAll ctx2 t2) = items (plugAll ctx t) := by
        have := insStep_items ctx t
        rw [h] at this; exact this
      cases ctx2 with
      | nil => simpa [plugAll] using hit
      | cons f fs =>
        simp only []
        rw [ih]
        simpa [plugAll] using hit

theorem items_eraseFix {K V : Type} :
    ∀ (ctx : List (Frame K V)) (t : Tree K V),
      items (eraseFix ctx t) = items (plugAll ctx t) := by
  intro ctx
  induction ctx with
  | nil =>
    intro t
    rw [eraseFix]
    by_cases h : levelOf (decreaseNodeLevel t) == levelOf t
    · simp [h, plugAll, items_decreaseNodeLevel]
    · simp [h, plugAll, items_eraseRots, items_decreaseNodeLevel]
  | cons f fs ih =>
    intro t
    rw [eraseFix]
    by_cases h : levelOf (decreaseNodeLevel t) == levelOf t
    · rw [if_pos h]
      exact items_plugAll_congr _ t (decreaseNodeLevel t)
        (items_decreaseNodeLevel t)
    · rw [if_neg h]
      rw [ih]
      have : items (plug f (eraseRots (decreaseNodeLevel t))) =
          items (plug f t) := by
        cases f with
        | mk dir d sib =>
          cases dir <;>
            simp [plug, items_node, items_eraseRots, items_decreaseNodeLevel]
      calc items (plugAll fs (plug f (eraseRots (decreaseNodeLevel t))))
          = items (plugAll fs (plug f t)) :=
            items_plugAll_congr fs _ _ this
        _ = items (plugAll (f :: fs) t) := by rfl

/-! ## Order bounds: BST order of subtrees and zipper contexts -/

/-- Optional strict lower bound. -/
def BndL {K : Type} [LinearOrder K] : Option K → K → Prop
  | none, _ => True
  | some a, k => a < k

/-- Optional strict upper bound. -/
def BndU {K : Type} [LinearOrder K] : K → Option K → Prop
  | _, none => True
  | k, some b => k < b

/-- BST order of a subtree within optional bounds. -/
def OrdB {K V : Type} [LinearOrder K] :
    Option K → Tree K V → Option K → Prop
  | _, Tree.nil, _ => True
  | lo, Tree.node l d r, hi =>
    BndL lo d.key ∧ BndU d.key hi ∧ OrdB lo l (some d.key) ∧
      OrdB (some d.key) r hi

theorem bndL_trans {K : Type} [LinearOrder K] {lo : Option K} {y x : K}
    (h1 : BndL lo y) (h2 : y < x) : BndL lo x := by
  cases lo with
  | none => trivial
  | some a => exact lt_trans h1 h2

theorem bndU_trans {K : Type} [LinearOrder K] {hi : Option K} {y x : K}
    (h1 : x < y) (h2 : BndU y hi) : BndU x hi := by
  cases hi with
  | none => trivial
  | some b => exact lt_trans h1 h2

theorem ordB_mem {K V : Type} [LinearOrder K] :
    ∀ (t : Tree K V) (lo hi : Option K), OrdB lo t hi →
      ∀ x ∈ keys t, BndL lo x ∧ BndU x hi := by
  intro t
  induction t with
  | nil => intro lo hi _ x hx; simp [keys, entries] at hx
  | node l d r ihl ihr =>
    intro lo hi ho x hx
    rcases ho with ⟨h1, h2, h3, h4⟩
    rw [keys_node] at hx
    rcases List.mem_append.1 hx with hxl | hxd
    · rcases ihl lo (some d.key) h3 x hxl with ⟨a, b⟩
      exact ⟨a, bndU_trans b h2⟩
    · rcases List.mem_cons.1 hxd with rfl | hxr
      · exact ⟨h1, h2⟩
      · rcases ihr (some d.key) hi h4 x hxr with ⟨a, b⟩
        exact ⟨bndL_trans h1 a, b⟩

theorem ordB_pairwise {K V : Type} [LinearOrder K] :
    ∀ (t : Tree K V) (lo hi : Option K), OrdB lo t hi →
      List.Pairwise (fun a b : K => a < b) (keys t) := by
  intro t
  induction t with
  | nil => intro lo hi _; simp [keys, entries]
  | node l d r ihl ihr =>
    intro lo hi ho
    rcases ho with ⟨h1, h2, h3, h4⟩
    rw [keys_node, List.pairwise_append]
    refine ⟨ihl _ _ h3, ?_, ?_⟩
    · rw [List.pairwise_cons]
      exact ⟨fun x hx => (ordB_mem r (some d.key) hi h4 x hx).1, ihr _ _ h4⟩
    · intro a ha b hb
      have hau : a < d.key := (ordB_mem l lo (some d.key) h3 a ha).2
      rcases List.mem_cons.1 hb with rfl | hbr
      · exact hau
      · exact lt_trans hau (ordB_mem r (some d.key) hi h4 b hbr).1

theorem pairwise_ordB {K V : Type} [LinearOrder K] :
    ∀ (t : Tree K V) (lo hi : Option K),
      List.Pairwise (fun a b : K => a < b) (keys t) →
      (∀ x ∈ keys t, BndL lo x ∧ BndU x hi) → OrdB lo t hi := by
  intro t
  induction t with
  | nil => intro lo hi _ _; trivial
  | node l d r ihl ihr =>
    intro lo hi hp hb
    rw [keys_node] at hp hb
    rw [List.pairwise_append] at hp
    rcases hp with ⟨hpl, hpr, hlr⟩
    rw [List.pairwise_cons] at hpr
    have hdmem : d.key ∈ keys l ++ d.key :: keys r := by simp
    refine ⟨(hb d.key hdmem).1, (hb d.key hdmem).2, ?_, ?_⟩
    · refine ihl lo (some d.key) hpl ?_
      intro x hx
      refine ⟨(hb x (by simp [hx])).1, ?_⟩
      exact hlr x hx d.key (by simp)
    · refine ihr (some d.key) hi hpr.2 ?_
      intro x hx
      refine ⟨hpr.1 x hx, (hb x (by simp [hx])).2⟩

theorem sorted_ordB {K V : Type} [LinearOrder K] (t : Tree K V)
    (h : Sorted t) : OrdB none t none := by
  refine pairwise_ordB t none none h ?_
  intro x _
  exact ⟨trivial, trivial⟩

/-- BST order of a zipper context around a hole with bounds `(lo, hi)`. -/
def CtxOK {K V : Type} [LinearOrder K] :
    List (Frame K V) → Option K → Option K → Prop
  | [], lo, hi => lo = none ∧ hi = none
  | f :: fs, lo, hi =>
    match f.dir with
    | Dir.l =>
      ∃ hi2, hi = some f.d.key ∧ BndL lo f.d.key ∧ BndU f.d.key hi2 ∧
        OrdB (some f.d.key) f.sib hi2 ∧ CtxOK fs lo hi2
    | Dir.r =>
      ∃ lo2, lo = some f.d.key ∧ BndL lo2 f.d.key ∧ BndU f.d.key hi ∧
        OrdB lo2 f.sib (some f.d.key) ∧ CtxOK fs lo2 hi

theorem ctxOK_plugAll {K V : Type} [LinearOrder K] :
    ∀ (ctx : List (Frame K V)) (lo hi : Option K) (t : Tree K V),
      CtxOK ctx lo hi → OrdB lo t hi → OrdB none (plugAll ctx t) none := by
  intro ctx
  induction ctx with
  | nil =>
    intro lo hi t hc ho
    rcases hc with ⟨rfl, rfl⟩
    exact ho
  | cons f fs ih =>
    intro lo hi t hc ho
    cases f with
    | mk dir d sib =>
      cases dir with
      | l =>
        rcases hc with ⟨hi2, rfl, hb1, hb2, hos, hcs⟩
        refine ih lo hi2 (plug ⟨Dir.l, d, sib⟩ t) hcs ?_
        exact ⟨hb1, hb2, ho, hos⟩
      | r =>
        rcases hc with ⟨lo2, rfl, hb1, hb2, hos, hcs⟩
        refine ih lo2 hi (plug ⟨Dir.r, d, sib⟩ t) hcs ?_
        exact ⟨hb1, hb2, hos, ho⟩

theorem ltd_true {K : Type} [LinearOrder K] {a b : K} :
    ltd a b = true ↔ a < b := by
  simp [ltd]

theorem ltd_false {K : Type} [LinearOrder K] {a b : K} :
    ltd a b = false ↔ ¬a < b := by
  simp [ltd]

theorem equivd_true {K : Type} [LinearOrder K] {a b : K} :
    (!ltd a b && !ltd b a) = true ↔ a = b := by
  simp only [Bool.and_eq_true, Bool.not_eq_true', ltd_false]
  constructor
  · rintro ⟨h1, h2⟩
    exact le_antisymm (not_lt.mp h2) (not_lt.mp h1)
  · rintro rfl
    exact ⟨lt_irrefl a, lt_irrefl a⟩

theorem findParentAux_node {K V : Type} (lt : K → K → Bool)
    (l : Tree K V) (d : ND K V) (r : Tree K V) (sk : K)
    (ctx : List (Frame K V)) :
    findParentAux lt (Tree.node l d r) sk ctx =
      (if !lt d.key sk && !lt sk d.key then
        some (ctx, Tree.node l d r, true)
      else if lt sk d.key then
        match l with
        | Tree.nil => some (ctx, Tree.node l d r, false)
        | Tree.node ll ld lr =>
          findParentAux lt (Tree.node ll ld lr) sk (⟨Dir.l, d, r⟩ :: ctx)
      else
        match r with
        | Tree.nil => some (ctx, Tree.node l d r, false)
        | Tree.node rl rd rr =>
          findParentAux lt (Tree.node rl rd rr) sk (⟨Dir.r, d, l⟩ :: ctx)) := by
  rw [findParentAux.eq_def]

/-- The workhorse specification of `findParent`'s descent loop on a BST-
ordered tree: the loop stops at a node inside the tree (the zipper rebuilds
the original tree), the stop node's position is order-consistent, a `true`
flag means the stop node holds the searched key, and a `false` flag means
the key is absent and the stop node's child slot on the key's side is
empty. -/
theorem findParentAux_spec {K V : Type} [LinearOrder K] :
    ∀ (t : Tree K V) (ctx : List (Frame K V)) (k : K) (lo hi : Option K),
      t ≠ Tree.nil → OrdB lo t hi → CtxOK ctx lo hi → BndL lo k →
      BndU k hi →
      ∃ ctx' l' d' r' fl,
        findParentAux ltd t k ctx = some (ctx', Tree.node l' d' r', fl) ∧
        plugAll ctx' (Tree.node l' d' r') = plugAll ctx t ∧
        ∃ lo' hi',
          OrdB lo' (Tree.node l' d' r') hi' ∧ CtxOK ctx' lo' hi' ∧
          BndL lo' k ∧ BndU k hi' ∧
          (fl = true → d'.key = k) ∧
          (fl = false → k ∉ keys t ∧
            ((k < d'.key ∧ l' = Tree.nil) ∨ (d'.key < k ∧ r' = Tree.nil))) := by
  intro t
  induction t with
  | nil => intro ctx k lo hi hne; exact absurd rfl hne
  | node l d r ihl ihr =>
    intro ctx k lo hi _ ho hc hbl hbu
    rcases ho with ⟨h1, h2, h3, h4⟩
    rcases lt_trichotomy k d.key with hk | hk | hk
    · -- descend left
      have hcond : (!ltd d.key k && !ltd k d.key) = false := by
        simp only [Bool.and_eq_false_iff, Bool.not_eq_false', ltd_true]
        exact Or.inr hk
      have hlt : ltd k d.key = true := ltd_true.mpr hk
      have hnotr : k ∉ keys r := by
        intro hx
        have := (ordB_mem r (some d.key) hi h4 k hx).1
        exact absurd (lt_trans hk this) (lt_irrefl k)
      have hnotd : ¬k = d.key := fun h => absurd (h ▸ hk) (lt_irrefl _)
      cases l with
      | nil =>
        refine ⟨ctx, Tree.nil, d, r, false, ?_, rfl, lo, hi,
          ⟨h1, h2, h3, h4⟩, hc, hbl, hbu, by simp, ?_⟩
        · rw [findParentAux_node]
          simp [hcond, hlt]
        · intro _
          refine ⟨?_, Or.inl ⟨hk, rfl⟩⟩
          rw [keys_node]
          intro hmem
          rcases List.mem_append.1 hmem with hx | hx
          · simp [keys, entries] at hx
          · rcases List.mem_cons.1 hx with hx | hx
            · exact hnotd hx
            · exact hnotr hx
      | node ll ld lr =>
        have hrec := ihl (⟨Dir.l, d, r⟩ :: ctx) k lo (some d.key)
          (by simp) h3 ⟨hi, rfl, h1, h2, h4, hc⟩ hbl hk
        rcases hrec with ⟨ctx', l', d', r', fl, heq, hplug, lo', hi', hrest⟩
        refine ⟨ctx', l', d', r', fl, ?_, ?_, lo', hi', hrest.1, hrest.2.1,
          hrest.2.2.1, hrest.2.2.2.1, hrest.2.2.2.2.1, ?_⟩
        · rw [findParentAux_node]
          simpa [hcond, hlt] using heq
        · rw [hplug]; rfl
        · intro hfl
          rcases hrest.2.2.2.2.2 hfl with ⟨hnl, hpos⟩
          refine ⟨?_, hpos⟩
          rw [keys_node]
          intro hmem
          rcases List.mem_append.1 hmem with hx | hx
          · exact hnl hx
          · rcases List.mem_cons.1 hx with hx | hx
            · exact hnotd hx
            · exact hnotr hx
    · -- found
      have hcond : (!ltd d.key k && !ltd k d.key) = true :=
        equivd_true.mpr hk.symm
      refine ⟨ctx, l, d, r, true, ?_, rfl, lo, hi, ⟨h1, h2, h3, h4⟩, hc,
        hbl, hbu, fun _ => hk.symm, by simp⟩
      rw [findParentAux_node]
      simp [hcond]
    · -- descend right
      have hcond : (!ltd d.key k && !ltd k d.key) = false := by
        simp only [Bool.and_eq_false_iff, Bool.not_eq_false', ltd_true]
        exact Or.inl hk
      have hlt : ltd k d.key = false := ltd_false.mpr (not_lt.mpr hk.le)
      have hgt : ltd d.key k = true := ltd_true.mpr hk
      have hnotl : k ∉ keys l := by
        intro hx
        have := (ordB_mem l lo (some d.key) h3 k hx).2
        exact absurd (lt_trans this hk) (lt_irrefl _)
      have hnotd : ¬k = d.key := fun h => absurd (h ▸ hk) (lt_irrefl _)
      cases r with
      | nil =>
        refine ⟨ctx, l, d, Tree.nil, false, ?_, rfl, lo, hi,
          ⟨h1, h2, h3, h4⟩, hc, hbl, hbu, by simp, ?_⟩
        · rw [findParentAux_node]
          simp [hgt, hlt]
        · intro _
          refine ⟨?_, Or.inr ⟨hk, rfl⟩⟩
          rw [keys_node]
          intro hmem
          rcases List.mem_append.1 hmem with hx | hx
          · exact hnotl hx
          · rcases List.mem_cons.1 hx with hx | hx
            · exact hnotd hx
            · simp [keys, entries] at hx
      | node rl rd rr =>
        have hrec := ihr (⟨Dir.r, d, l⟩ :: ctx) k (some d.key) hi
          (by simp) h4 ⟨lo, rfl, h1, h2, h3, hc⟩ hk hbu
        rcases hrec with ⟨ctx', l', d', r', fl, heq, hplug, lo', hi', hrest⟩
        refine ⟨ctx', l', d', r', fl, ?_, ?_, lo', hi', hrest.1, hrest.2.1,
          hrest.2.2.1, hrest.2.2.2.1, hrest.2.2.2.2.1, ?_⟩
        · rw [findParentAux_node]
          simpa [hgt, hlt] using heq
        · rw [hplug]; rfl
        · intro hfl
          rcases hrest.2.2.2.2.2 hfl with ⟨hnr, hpos⟩
          refine ⟨?_, hpos⟩
          rw [keys_node]
          intro hmem
          rcases List.mem_append.1 hmem with hx | hx
          · exact hnotl hx
          · rcases List.mem_cons.1 hx with hx | hx
            · exact hnotd hx
            · exact hnr hx

/-! ## Lookup specifications -/

theorem usub_small {a b : Nat} (h : b ≤ a) (h2 : a < 2 ^ 64) :
    usub a b = a - b := by
  unfold usub
  omega

theorem entries_ne_nil {K V : Type} (l : Tree K V) (d : ND K V)
    (r : Tree K V) : entries (Tree.node l d r) ≠ [] := by
  simp [entries]

theorem entries_nil_iff {K V : Type} (t : Tree K V) :
    entries t = [] ↔ t = Tree.nil := by
  cases t with
  | nil => simp [entries]
  | node l d r => simp [entries]

theorem keyOfId_head {K V : Type} (t : Tree K V) (e : ND K V)
    (rest : List (ND K V)) (h : entries t = e :: rest) :
    keyOfId t e.id = some e.key := by
  simp [keyOfId, h, List.find?]

theorem pairwise_key_unique {K V : Type} [LinearOrder K] :
    ∀ (L : List (ND K V)),
      List.Pairwise (fun a b : K => a < b) (L.map ND.key) →
      ∀ d0 ∈ L, ∀ d1 ∈ L, d0.key = d1.key → d0 = d1 := by
  intro L
  induction L with
  | nil => intro _ d0 h0; simp at h0
  | cons x xs ih =>
    intro hp d0 h0 d1 h1 hk
    rw [List.map_cons, List.pairwise_cons] at hp
    rcases List.mem_cons.1 h0 with h0' | h0'
    · rcases List.mem_cons.1 h1 with h1' | h1'
      · rw [h0', h1']
      · exfalso
        have hx := hp.1 d1.key (List.mem_map_of_mem ND.key h1')
        rw [← h0', hk] at hx
        exact lt_irrefl _ hx
    · rcases List.mem_cons.1 h1 with h1' | h1'
      · exfalso
        have hx := hp.1 d0.key (List.mem_map_of_mem ND.key h0')
        rw [← h1', hk] at hx
        exact lt_irrefl _ hx
      · exact ih hp.2 d0 h0' d1 h1' hk

theorem findNodeE_node {K V : Type} (lt : K → K → Bool) (l : Tree K V)
    (d : ND K V) (r : Tree K V) (sk : K) :
    findNodeE lt (Tree.node l d r) sk =
      (if !lt d.key sk && !lt sk d.key then some d
       else if lt sk d.key then findNodeE lt l sk
       else findNodeE lt r sk) := by
  rw [findNodeE.eq_def]

theorem findNodeE_mem {K V : Type} [LinearOrder K] :
    ∀ (t : Tree K V) (lo hi : Option K) (k : K) (d1 : ND K V),
      OrdB lo t hi → d1 ∈ entries t → d1.key = k →
      findNodeE ltd t k = some d1 := by
  intro t
  induction t with
  | nil => intro lo hi k d1 _ h1; simp [entries] at h1
  | node l d r ihl ihr =>
    intro lo hi k d1 ho h1 hk
    rcases ho with ⟨_, _, h3, h4⟩
    rw [findNodeE_node]
    simp only [entries, List.mem_append, List.mem_cons] at h1
    rcases h1 with h1 | h1 | h1
    · have hlt : k < d.key := by
        rw [← hk]
        exact (ordB_mem l _ _ h3 d1.key
          (List.mem_map_of_mem ND.key h1)).2
      have hc : (!ltd d.key k && !ltd k d.key) = false := by
        simp only [Bool.and_eq_false_iff, Bool.not_eq_false', ltd_true]
        exact Or.inr hlt
      rw [hc, if_neg (by simp), if_pos (ltd_true.mpr hlt)]
      exact ihl lo (some d.key) k d1 h3 h1 hk
    · have hc : (!ltd d.key k && !ltd k d.key) = true := by
        rw [h1] at hk
        exact equivd_true.mpr hk
      rw [hc, if_pos rfl, h1]
    · have hlt : d.key < k := by
        rw [← hk]
        exact (ordB_mem r _ _ h4 d1.key
          (List.mem_map_of_mem ND.key h1)).1
      have hc : (!ltd d.key k && !ltd k d.key) = false := by
        simp only [Bool.and_eq_false_iff, Bool.not_eq_false', ltd_true]
        exact Or.inl hlt
      rw [hc, if_neg (by simp),
        if_neg (by simp [ltd_false, not_lt.mpr hlt.le]),
        ihr (some d.key) hi k d1 h4 h1 hk]

theorem findNodeE_none {K V : Type} [LinearOrder K] :
    ∀ (t : Tree K V) (lo hi : Option K) (k : K),
      OrdB lo t hi → k ∉ keys t → findNodeE ltd t k = none := by
  intro t
  induction t with
  | nil => intro lo hi k _ _; rfl
  | node l d r ihl ihr =>
    intro lo hi k ho hk
    rcases ho with ⟨_, _, h3, h4⟩
    rw [keys_node] at hk
    simp only [List.mem_append, List.mem_cons, not_or] at hk
    rcases hk with ⟨hkl, hkd, hkr⟩
    rw [findNodeE_node]
    have hc : (!ltd d.key k && !ltd k d.key) = false := by
      simp only [Bool.and_eq_false_iff, Bool.not_eq_false', ltd_true]
      rcases lt_trichotomy k d.key with h | h | h
      · exact Or.inr h
      · exact absurd h hkd
      · exact Or.inl h
    rw [hc, if_neg (by simp)]
    by_cases hlt : k < d.key
    · rw [if_pos (ltd_true.mpr hlt)]
      exact ihl lo (some d.key) k h3 hkl
    · rw [if_neg (by simp [ltd_false, hlt])]
      exact ihr (some d.key) hi k h4 hkr

theorem findNodeZ_node {K V : Type} (lt : K → K → Bool) (l : Tree K V)
    (d : ND K V) (r : Tree K V) (sk : K) (ctx : List (Frame K V)) :
    findNodeZ lt (Tree.node l d r) sk ctx =
      (if !lt d.key sk && !lt sk d.key then
        some (ctx, Tree.node l d r)
      else if lt sk d.key then
        findNodeZ lt l sk (⟨Dir.l, d, r⟩ :: ctx)
      else
        findNodeZ lt r sk (⟨Dir.r, d, l⟩ :: ctx)) := by
  rw [findNodeZ.eq_def]

theorem findNodeZ_sound {K V : Type} [LinearOrder K] :
    ∀ (t : Tree K V) (k : K) (ctx ctx' : List (Frame K V)) (t' : Tree K V),
      findNodeZ ltd t k ctx = some (ctx', t') →
      (∃ l' d' r', t' = Tree.node l' d' r' ∧ d'.key = k) ∧
        plugAll ctx' t' = plugAll ctx t := by
  intro t
  induction t with
  | nil => intro k ctx ctx' t' h; simp [findNodeZ] at h
  | node l d r ihl ihr =>
    intro k ctx ctx' t' h
    rw [findNodeZ_node] at h
    by_cases hc : (!ltd d.key k && !ltd k d.key) = true
    · rw [if_pos hc] at h
      have h' := Option.some.inj h
      injection h' with h1 h2
      subst h1
      subst h2
      exact ⟨⟨l, d, r, rfl, equivd_true.mp hc⟩, rfl⟩
    · rw [if_neg hc] at h
      by_cases hlt : ltd k d.key = true
      · rw [if_pos hlt] at h
        exact ihl k _ ctx' t' h
      · rw [if_neg hlt] at h
        exact ihr k _ ctx' t' h

theorem findParentAux_ne_none {K V : Type} (lt : K → K → Bool) :
    ∀ (t : Tree K V) (k : K) (ctx : List (Frame K V)), t ≠ Tree.nil →
      findParentAux lt t k ctx ≠ none := by
  intro t
  induction t with
  | nil => intro k ctx h; exact absurd rfl h
  | node l d r ihl ihr =>
    intro k ctx _
    rw [findParentAux_node]
    by_cases hc : (!lt d.key k && !lt k d.key) = true
    · simp [hc]
    · rw [if_neg hc]
      by_cases hlt : lt k d.key = true
      · rw [if_pos hlt]
        cases l with
        | nil => simp
        | node ll ld lr => exact ihl k _ (by simp)
      · rw [if_neg hlt]
        cases r with
        | nil => simp
        | node rl rd rr => exact ihr k _ (by simp)

theorem map_id_entries {K V : Type} (t : Tree K V) :
    (entries t).map ND.id = (items t).map (fun e => e.1) := by
  simp [items, strip, Function.comp]

theorem head_id_entries {K V : Type} (t : Tree K V) :
    ((entries t).head?).map ND.id =
      ((items t).head?).map (fun e => e.1) := by
  cases h : entries t with
  | nil => simp [items, h]
  | cons e rest => simp [items, h, strip]

theorem length_entries_items {K V : Type} (t : Tree K V) :
    (entries t).length = (items t).length := by
  simp [items]

/-! ## Characterisation of `insert` -/

theorem keys_plug_mem {K V : Type} (ctx : List (Frame K V))
    (l : Tree K V) (d : ND K V) (r : Tree K V) :
    d ∈ entries (plugAll ctx (Tree.node l d r)) := by
  rw [entries_plugAll]
  simp [entries]

/-- A duplicate insertion: if the (BST-ordered) tree already stores an entry
whose key equals the inserted key, `insert` returns that node's handle with
`inserted = false` and the whole map — tree, levels, values, cached minimum,
size, allocation counter — unchanged. -/
theorem insert_found {K V : Type} [LinearOrder K] (m : MapS K V) (k : K)
    (v : V) (d1 : ND K V) (hs : Sorted m.root) (hmem : d1 ∈ entries m.root)
    (hk1 : d1.key = k) :
    insert ltd beqd m k v = (m, d1.id, false) := by
  have hroot : m.root ≠ Tree.nil := by
    intro h
    rw [h] at hmem
    simp [entries] at hmem
  have hsp := findParentAux_spec m.root [] k none none hroot
    (sorted_ordB m.root hs) ⟨rfl, rfl⟩ trivial trivial
  rcases hsp with ⟨ctx', l', d', r', fl, heq, hplug, lo', hi', hOrd', hCtx',
    hbl', hbu', hflT, hflF⟩
  have hkmem : k ∈ keys m.root := by
    rw [← hk1]
    exact List.mem_map_of_mem ND.key hmem
  have hfl : fl = true := by
    cases fl with
    | true => rfl
    | false => exact absurd hkmem (hflF rfl).1
  subst hfl
  have hdk : d'.key = k := hflT rfl
  have hz : findParentZ ltd m k = some (ctx', Tree.node l' d' r') := by
    simp [findParentZ, heq]
  have hd'mem : d' ∈ entries m.root := by
    simp only [plugAll] at hplug
    rw [← hplug]
    exact keys_plug_mem ctx' l' d' r'
  have hdd1 : d' = d1 :=
    pairwise_key_unique (entries m.root) hs d' hd'mem d1 hmem
      (by rw [hdk, hk1])
  have hbeq : beqd d'.key k = true := by
    simp [beqd, hdk]
  simp only [insert, hz, hbeq, if_pos]
  rw [hdd1]
theorem head_new_items {K V : Type} [LinearOrder K]
    (L1 L2 : List (Nat × K × V)) (ne e0 : Nat × K × V)
    (rest : List (Nat × K × V)) (hold : L1 ++ L2 = e0 :: rest)
    (hsorted : List.Pairwise (fun a b : K => a < b)
      ((L1 ++ ne :: L2).map (fun e => e.2.1))) :
    (L1 ++ ne :: L2).head? =
      (if ne.2.1 < e0.2.1 then some ne else some e0) := by
  cases L1 with
  | nil =>
    rw [List.nil_append] at hold ⊢
    subst hold
    simp only [List.nil_append, List.map_cons, List.pairwise_cons]
      at hsorted
    have h1 : ne.2.1 < e0.2.1 := hsorted.1 e0.2.1 (by simp)
    rw [if_pos h1, List.head?_cons]
  | cons x L1' =>
    rw [List.cons_append] at hold ⊢
    have hx : x = e0 := (List.cons.injEq .. ▸ hold).1
    subst hx
    simp only [List.cons_append, List.map_cons, List.pairwise_cons]
      at hsorted
    have h1 : x.2.1 < ne.2.1 := hsorted.1 ne.2.1 (by simp)
    rw [if_neg (by intro hcon; exact absurd (lt_trans h1 hcon) (lt_irrefl _)),
      List.head?_cons]

/-- A fresh insertion into an invariant-respecting map: the result's store
is the old store with the new `(id, key, value)` entry placed at its sorted
position, the result is BST-ordered, the handle is the fresh node with
`inserted = true`, `size_` grew by one, the allocation counter advanced and
`b_iter_` is the new store's first entry. -/
theorem ins_new {K V : Type} [LinearOrder K] (m : MapS K V) (k : K) (v : V)
    (hInv : Inv m) (hk : k ∉ keys m.root)
    (hns : m.root ≠ Tree.nil → m.size ≠ 0) :
    ∃ L1 L2,
      items m.root = L1 ++ L2 ∧
      items (insert ltd beqd m k v).1.root = L1 ++ (m.nextId, k, v) :: L2 ∧
      Sorted (insert ltd beqd m k v).1.root ∧
      (insert ltd beqd m k v).2.1 = m.nextId ∧
      (insert ltd beqd m k v).2.2 = true ∧
      (insert ltd beqd m k v).1.size = (m.size + 1) % 2 ^ 64 ∧
      (insert ltd beqd m k v).1.nextId = m.nextId + 1 ∧
      (insert ltd beqd m k v).1.bIter =
        ((items (insert ltd beqd m k v).1.root).head?).map
          (fun e => e.1) := by
  rcases hInv with ⟨hs, hb, hnodup, hbound, hsize⟩
  by_cases hroot : m.root = Tree.nil
  · have hz : findParentZ ltd m k = none := by
      simp [findParentZ, hroot, findParentAux]
    refine ⟨[], [], ?_, ?_, ?_, ?_, ?_, ?_, ?_, ?_⟩ <;>
      simp [insert, hz, hroot, items, entries, Sorted, keys, strip]
  · have hsp := findParentAux_spec m.root [] k none none hroot
      (sorted_ordB m.root hs) ⟨rfl, rfl⟩ trivial trivial
    rcases hsp with ⟨ctx', l', d', r', fl, heq, hplug, lo', hi', hOrd',
      hCtx', hbl', hbu', hflT, hflF⟩
    simp only [plugAll] at hplug
    have hfl : fl = false := by
      cases fl with
      | false => rfl
      | true =>
        exfalso
        apply hk
        rw [← hflT rfl, ← hplug]
        exact List.mem_map_of_mem ND.key (keys_plug_mem ctx' l' d' r')
    subst hfl
    rcases hflF rfl with ⟨-, hpos⟩
    have hszne : ¬m.size == 0 := by
      have := hns hroot
      simp only [beq_iff_eq]
      exact this
    have hz : findParentZ ltd m k = some (ctx', Tree.node l' d' r') := by
      simp [findParentZ, heq, hszne]
    have hdkne : ¬d'.key = k := by
      rcases hpos with ⟨hlt, -⟩ | ⟨hgt, -⟩
      · intro h; rw [h] at hlt; exact lt_irrefl k hlt
      · intro h; rw [h] at hgt; exact lt_irrefl k hgt
    have hbeq : beqd d'.key k = false := by
      simp [beqd, hdkne]
    -- the head of the old store, for the cached-minimum bookkeeping
    rcases hent : entries m.root with _ | ⟨e0, erest⟩
    · exact absurd ((entries_nil_iff m.root).mp hent) hroot
    have hbit : m.bIter = some e0.id := by rw [hb, hent]; rfl
    have hkid : keyOfId m.root e0.id = some e0.key := keyOfId_head _ _ _ hent
    have holdit : items m.root = strip e0 :: erest.map strip := by
      rw [items_def, hent, List.map_cons]
    rcases hpos with ⟨hklt, hl'⟩ | ⟨hkgt, hr'⟩
    · -- left attachment
      subst hl'
      have hltb : ltd k d'.key = true := ltd_true.mpr hklt
      have hres : insert ltd beqd m k v =
          ({ root := insFix (insFuel m) ctx'
              (Tree.node (Tree.node Tree.nil ⟨m.nextId, k, v, 1⟩ Tree.nil)
                d' r') 0,
             bIter := if ltd k e0.key then some m.nextId else m.bIter,
             size := (m.size + 1) % 2 ^ 64, nextId := m.nextId + 1 },
            m.nextId, true) := by
        rw [insert.eq_def, hz]
        simp only [hbeq, Bool.false_eq_true, if_false, hbit, hkid, hltb,
          if_true]
      set leaf : Tree K V :=
        Tree.node Tree.nil ⟨m.nextId, k, v, 1⟩ Tree.nil with hleaf
      have hitems : items (insert ltd beqd m k v).1.root =
          (ctxPre ctx').map strip ++
            (m.nextId, k, v) ::
              (strip d' :: items r' ++ (ctxPost ctx').map strip) := by
        rw [hres]
        simp only [items_insFix, items_plugAll, items_node, hleaf]
        simp [items, entries, strip]
      have holds : items m.root =
          (ctxPre ctx').map strip ++
            (strip d' :: items r' ++ (ctxPost ctx').map strip) := by
        rw [← hplug, items_plugAll, items_node]
        simp [items, entries]
      have hOrdNew : OrdB none
          (plugAll ctx' (Tree.node leaf d' r')) none := by
        refine ctxOK_plugAll ctx' lo' hi' _ hCtx' ?_
        rcases hOrd' with ⟨o1, o2, o3, o4⟩
        exact ⟨o1, o2, ⟨hbl', hklt, trivial, trivial⟩, o4⟩
      have hkeys : keys (insert ltd beqd m k v).1.root =
          (items (insert ltd beqd m k v).1.root).map (fun e => e.2.1) :=
        keys_eq_items _
      have hsorted' : Sorted (insert ltd beqd m k v).1.root := by
        unfold Sorted
        rw [hkeys, hitems]
        have hkeys2 : keys (plugAll ctx' (Tree.node leaf d' r')) =
            (items (plugAll ctx' (Tree.node leaf d' r'))).map
              (fun e => e.2.1) := keys_eq_items _
        have := ordB_pairwise _ none none hOrdNew
        rw [hkeys2, items_plugAll, items_node] at this
        simp only [hleaf, items, entries, List.map_cons, List.map_nil,
          List.map_append, strip] at this ⊢
        simpa using this
      refine ⟨(ctxPre ctx').map strip,
        strip d' :: items r' ++ (ctxPost ctx').map strip,
        holds, hitems, hsorted', by rw [hres], by rw [hres], by rw [hres],
        by rw [hres], ?_⟩
      rw [hitems]
      have hheads := head_new_items ((ctxPre ctx').map strip)
        (strip d' :: items r' ++ (ctxPost ctx').map strip)
        (m.nextId, k, v) (strip e0) (erest.map strip)
        (by rw [← holds, holdit]) ?_
      · rw [hres]
        simp only []
        rw [hheads]
        by_cases hc : k < e0.key
        · rw [if_pos (ltd_true.mpr hc), if_pos (by exact hc)]
          rfl
        · rw [if_neg (by simp [ltd_false, hc]), if_neg (by exact hc), hbit]
          rfl
      · have := hsorted'
        unfold Sorted at this
        rw [hkeys, hitems] at this
        exact this
    · -- right attachment
      subst hr'
      have hltb : ltd k d'.key = false := ltd_false.mpr (not_lt.mpr hkgt.le)
      have hres : insert ltd beqd m k v =
          ({ root :=
              match ctx' with
              | [] => Tree.node l' d'
                  (Tree.node Tree.nil ⟨m.nextId, k, v, 1⟩ Tree.nil)
              | f :: fs => insFix (insFuel m) fs
                  (plug f (Tree.node l' d'
                    (Tree.node Tree.nil ⟨m.nextId, k, v, 1⟩ Tree.nil))) 0,
             bIter := if ltd k e0.key then some m.nextId else m.bIter,
             size := (m.size + 1) % 2 ^ 64, nextId := m.nextId + 1 },
            m.nextId, true) := by
        simp only [insert.eq_def, hz, hbeq, Bool.false_eq_true, if_false,
          hbit, hkid, hltb]
        cases ctx' <;> rfl
      set leaf : Tree K V :=
        Tree.node Tree.nil ⟨m.nextId, k, v, 1⟩ Tree.nil with hleaf
      have hrootitems : items (insert ltd beqd m k v).1.root =
          items (plugAll ctx' (Tree.node l' d' leaf)) := by
        rw [hres]
        cases ctx' with
        | nil => simp [plugAll]
        | cons f fs =>
          simp only []
          rw [items_insFix]
          rfl
      have hitems : items (insert ltd beqd m k v).1.root =
          ((ctxPre ctx').map strip ++ items l' ++ [strip d']) ++
            (m.nextId, k, v) :: (ctxPost ctx').map strip := by
        rw [hrootitems, items_plugAll, items_node]
        simp [hleaf, items, entries, strip]
      have holds : items m.root =
          ((ctxPre ctx').map strip ++ items l' ++ [strip d']) ++
            (ctxPost ctx').map strip := by
        rw [← hplug, items_plugAll, items_node]
        simp [items, entries]
      have hOrdNew : OrdB none
          (plugAll ctx' (Tree.node l' d' leaf)) none := by
        refine ctxOK_plugAll ctx' lo' hi' _ hCtx' ?_
        rcases hOrd' with ⟨o1, o2, o3, o4⟩
        exact ⟨o1, o2, o3, ⟨hkgt, hbu', trivial, trivial⟩⟩
      have hsorted' : Sorted (insert ltd beqd m k v).1.root := by
        unfold Sorted
        rw [keys_eq_items, hrootitems]
        have := ordB_pairwise _ none none hOrdNew
        rw [keys_eq_items] at this
        exact this
      refine ⟨(ctxPre ctx').map strip ++ items l' ++ [strip d'],
        (ctxPost ctx').map strip,
        holds, hitems, hsorted', by rw [hres], by rw [hres], by rw [hres],
        by rw [hres], ?_⟩
      rw [hitems]
      have hheads := head_new_items
        ((ctxPre ctx').map strip ++ items l' ++ [strip d'])
        ((ctxPost ctx').map strip)
        (m.nextId, k, v) (strip e0) (erest.map strip)
        (by rw [← holds, holdit]) ?_
      · rw [hres]
        simp only []
        rw [hheads]
        by_cases hc : k < e0.key
        · rw [if_pos (ltd_true.mpr hc), if_pos (by exact hc)]
          rfl
        · rw [if_neg (by simp [ltd_false, hc]), if_neg (by exact hc), hbit]
          rfl
      · have := hsorted'
        unfold Sorted at this
        rw [keys_eq_items, hitems] at this
        exact this
/-! ## Preservation of the container invariant -/

theorem inv_mapEmpty {K V : Type} [LinearOrder K] :
    Inv (mapEmpty : MapS K V) := by
  refine ⟨?_, ?_, ?_, ?_, ?_⟩ <;> simp [mapEmpty, Sorted, keys, entries]

theorem inv_singleton {K V : Type} [LinearOrder K] (m : MapS K V) (k : K)
    (v : V) (hsz0 : m.size = 0) (hz : findParentZ ltd m k = none) :
    Inv (insert ltd beqd m k v).1 := by
  have hres : (insert ltd beqd m k v).1 =
      { root := Tree.node Tree.nil ⟨m.nextId, k, v, 1⟩ Tree.nil,
        bIter := some m.nextId, size := (m.size + 1) % 2 ^ 64,
        nextId := m.nextId + 1 } := by
    rw [insert.eq_def, hz]
  rw [hres]
  refine ⟨?_, ?_, ?_, ?_, ?_⟩ <;>
    simp [Sorted, keys, entries, hsz0]

theorem inv_insert {K V : Type} [LinearOrder K] (m : MapS K V) (k : K)
    (v : V) (hInv : Inv m) : Inv (insert ltd beqd m k v).1 := by
  by_cases hk : k ∈ keys m.root
  · rcases List.mem_map.1 hk with ⟨d1, hmem, hk1⟩
    rw [insert_found m k v d1 hInv.1 hmem hk1]
    exact hInv
  · by_cases hns : m.root ≠ Tree.nil → m.size ≠ 0
    · rcases ins_new m k v hInv hk hns with
        ⟨L1, L2, hold, hnew, hsorted, -, -, hsz, hnext, hbit⟩
      have hids : (entries (insert ltd beqd m k v).1.root).map ND.id =
          L1.map (fun e => e.1) ++ m.nextId :: L2.map (fun e => e.1) := by
        rw [map_id_entries, hnew]
        simp
      have holdids : (entries m.root).map ND.id =
          L1.map (fun e => e.1) ++ L2.map (fun e => e.1) := by
        rw [map_id_entries, hold]
        simp
      have hfresh : ∀ x ∈ L1.map (fun e => e.1) ++ L2.map (fun e => e.1),
          x < m.nextId := by
        intro x hx
        rw [← holdids] at hx
        rcases List.mem_map.1 hx with ⟨d2, hd2, hd2x⟩
        rw [← hd2x]
        exact hInv.2.2.2.1 d2 hd2
      refine ⟨hsorted, ?_, ?_, ?_, ?_⟩
      · rw [hbit, head_id_entries]
      · rw [hids, List.nodup_middle, List.nodup_cons]
        constructor
        · intro hmem2
          exact absurd (hfresh _ hmem2) (lt_irrefl _)
        · rw [← holdids]
          exact hInv.2.2.1
      · intro d hd
        have hd2 : d.id ∈ (entries (insert ltd beqd m k v).1.root).map
            ND.id := List.mem_map_of_mem ND.id hd
        rw [hids] at hd2
        rw [hnext]
        rcases List.mem_append.1 hd2 with h | h
        · exact lt_trans (hfresh _ (List.mem_append_left _ h))
            (Nat.lt_succ_self _)
        · rcases List.mem_cons.1 h with h | h
          · rw [h]
            exact Nat.lt_succ_self _
          · exact lt_trans (hfresh _ (List.mem_append_right _ h))
              (Nat.lt_succ_self _)
      · have h2 : (entries (insert ltd beqd m k v).1.root).length =
            L1.length + L2.length + 1 := by
          rw [length_entries_items, hnew]
          simp
          omega
        have h3 : m.size = (L1.length + L2.length) % 2 ^ 64 := by
          rw [hInv.2.2.2.2, length_entries_items, hold]
          simp
        rw [hsz, h2, h3]
        omega
    · push_neg at hns
      rcases hns with ⟨hroot, hsz0⟩
      have hz : findParentZ ltd m k = none := by
        have hsp := findParentAux_spec m.root [] k none none hroot
          (sorted_ordB m.root hInv.1) ⟨rfl, rfl⟩ trivial trivial
        rcases hsp with ⟨ctx', l', d', r', fl, heq, hplug, -, -, -, -, -, -,
          hflT, hflF⟩
        have hfl : fl = false := by
          cases fl with
          | false => rfl
          | true =>
            exfalso
            apply hk
            rw [← hflT rfl]
            simp only [plugAll] at hplug
            rw [← hplug]
            exact List.mem_map_of_mem ND.key (keys_plug_mem ctx' l' d' r')
        subst hfl
        simp [findParentZ, heq, hsz0]
      exact inv_singleton m k v hsz0 hz
theorem usub_mod {n : Nat} (h : 1 ≤ n) :
    usub (n % 2 ^ 64) 1 = (n - 1) % 2 ^ 64 := by
  unfold usub
  omega

theorem nodup_id_unique {K V : Type} :
    ∀ (L : List (ND K V)), (L.map ND.id).Nodup →
      ∀ d0 ∈ L, ∀ d1 ∈ L, d0.id = d1.id → d0 = d1 := by
  intro L
  induction L with
  | nil => intro _ d0 h0; simp at h0
  | cons x xs ih =>
    intro hnd d0 h0 d1 h1 hid
    rw [List.map_cons, List.nodup_cons] at hnd
    rcases List.mem_cons.1 h0 with h0' | h0'
    · rcases List.mem_cons.1 h1 with h1' | h1'
      · rw [h0', h1']
      · exfalso
        apply hnd.1
        rw [← h0', hid]
        exact List.mem_map_of_mem ND.id h1'
    · rcases List.mem_cons.1 h1 with h1' | h1'
      · exfalso
        apply hnd.1
        rw [← h1', ← hid]
        exact List.mem_map_of_mem ND.id h0'
      · exact ih hnd.2 d0 h0' d1 h1' hid

theorem mid_head_nil {K V : Type} (P S : List (ND K V)) (d : ND K V)
    (hnd : ((P ++ d :: S).map ND.id).Nodup)
    (hh : (P ++ d :: S).head? = some d) : P = [] := by
  cases P with
  | nil => rfl
  | cons a P' =>
    exfalso
    rw [List.cons_append, List.head?_cons] at hh
    have ha : a = d := Option.some.inj hh
    subst ha
    rw [List.cons_append, List.map_cons, List.nodup_cons] at hnd
    exact hnd.1 (by simp)

theorem head?_append_congr {α : Type} (P X Y : List α) (h : P ≠ []) :
    (P ++ X).head? = (P ++ Y).head? := by
  cases P with
  | nil => exact absurd rfl h
  | cons a P' => simp

theorem leftmost_head {K V : Type} :
    ∀ t : Tree K V, leftmost t = (entries t).head? := by
  intro t
  induction t with
  | nil => rfl
  | node l d r ihl ihr =>
    cases l with
    | nil => simp [leftmost, entries]
    | node ll ld lr =>
      rw [leftmost, ihl]
      show (entries (Tree.node ll ld lr)).head? =
        (entries (Tree.node ll ld lr) ++ d :: entries r).head?
      rcases he : entries (Tree.node ll ld lr) with _ | ⟨e, es⟩
      · exact absurd he (entries_ne_nil ll ld lr)
      · simp

theorem leftmostZ_parts {K V : Type} :
    ∀ (t : Tree K V) (d : ND K V) (r : Tree K V) (acc : List (Frame K V)),
      ctxPre (leftmostZ t d r acc).1 = ctxPre acc ∧
      (leftmostZ t d r acc).2.1 ::
          (entries (leftmostZ t d r acc).2.2 ++
            ctxPost (leftmostZ t d r acc).1) =
        entries (Tree.node t d r) ++ ctxPost acc := by
  intro t
  induction t with
  | nil =>
    intro d r acc
    constructor
    · rfl
    · simp [leftmostZ, entries]
  | node ll ld lr ihl ihr =>
    intro d r acc
    have := ihl ld lr (⟨Dir.l, d, r⟩ :: acc)
    rw [leftmostZ]
    refine ⟨?_, ?_⟩
    · rw [this.1]
      simp [ctxPre]
    · rw [this.2]
      simp [entries, ctxPost]
theorem nodup_proj_unique {α β : Type} :
    ∀ (L : List α) (f : α → β), (L.map f).Nodup →
      ∀ x ∈ L, ∀ y ∈ L, f x = f y → x = y := by
  intro L f
  induction L with
  | nil => intro _ x hx; simp at hx
  | cons a as ih =>
    intro hnd x hx y hy hf
    rw [List.map_cons, List.nodup_cons] at hnd
    rcases List.mem_cons.1 hx with hx' | hx'
    · rcases List.mem_cons.1 hy with hy' | hy'
      · rw [hx', hy']
      · exfalso
        apply hnd.1
        rw [← hx', hf]
        exact List.mem_map_of_mem f hy'
    · rcases List.mem_cons.1 hy with hy' | hy'
      · exfalso
        apply hnd.1
        rw [← hy', ← hf]
        exact List.mem_map_of_mem f hx'
      · exact ih hnd.2 x hx' y hy' hf

theorem mid_head_nil_proj {α β : Type} (f : α → β) (P S : List α) (d : α)
    (hnd : ((P ++ d :: S).map f).Nodup)
    (hh : (P ++ d :: S).head? = some d) : P = [] := by
  cases P with
  | nil => rfl
  | cons a P' =>
    exfalso
    rw [List.cons_append, List.head?_cons] at hh
    have ha : a = d := Option.some.inj hh
    subst ha
    rw [List.cons_append, List.map_cons, List.nodup_cons] at hnd
    exact hnd.1 (by simp)

theorem inv_eraseTrivial {K V : Type} [LinearOrder K] (m : MapS K V)
    (ctx : List (Frame K V)) (l : Tree K V) (d : ND K V) (r : Tree K V)
    (child : Tree K V) (hInv : Inv m)
    (hplug : plugAll ctx (Tree.node l d r) = m.root)
    (hchild : items child = items l ++ items r) :
    Inv (eraseTrivial m ctx d r child) := by
  rcases hInv with ⟨hs, hb, hnd, hbd, hsz⟩
  have hOld : items m.root =
      (ctxPre ctx).map strip ++
        (items l ++ strip d :: items r) ++ (ctxPost ctx).map strip := by
    rw [← hplug, items_plugAll, items_node]
  have hroot' : items (eraseTrivial m ctx d r child).root =
      (ctxPre ctx).map strip ++ (items l ++ items r) ++
        (ctxPost ctx).map strip := by
    rw [eraseTrivial.eq_def]
    cases ctx with
    | nil =>
      simp only []
      rw [hchild]
      simp [ctxPre, ctxPost]
    | cons f fs =>
      simp only []
      rw [items_eraseFix]
      have : plugAll fs (plug f child) = plugAll (f :: fs) child := rfl
      rw [this, items_plugAll, hchild]
  have hsz' : (eraseTrivial m ctx d r child).size = usub m.size 1 := by
    rw [eraseTrivial.eq_def]
    cases ctx <;> rfl
  have hnid : (eraseTrivial m ctx d r child).nextId = m.nextId := by
    rw [eraseTrivial.eq_def]
    cases ctx <;> rfl
  have hsubI : List.Sublist
      ((ctxPre ctx).map strip ++ (items l ++ items r) ++
        (ctxPost ctx).map strip)
      ((ctxPre ctx).map strip ++ (items l ++ strip d :: items r) ++
        (ctxPost ctx).map strip) := by
    refine List.Sublist.append ?_ (List.Sublist.refl _)
    refine List.Sublist.append (List.Sublist.refl _) ?_
    exact List.Sublist.append (List.Sublist.refl _)
      (List.Sublist.cons _ (List.Sublist.refl _))
  have hsubRoot : List.Sublist (items (eraseTrivial m ctx d r child).root)
      (items m.root) := by
    rw [hroot', hOld]
    exact hsubI
  have holdlen : 1 ≤ (entries m.root).length := by
    rw [length_entries_items, hOld]
    simp
    omega
  refine ⟨?_, ?_, ?_, ?_, ?_⟩
  · unfold Sorted at hs ⊢
    rw [keys_eq_items] at hs ⊢
    exact hs.sublist (hsubRoot.map (fun e => e.2.1))
  · rw [head_id_entries]
    rcases hent : entries m.root with _ | ⟨e0, rest⟩
    · exfalso
      rw [hent] at holdlen
      simp at holdlen
    have hbOld : m.bIter = some e0.id := by
      rw [hb, hent]
      rfl
    have holdI : items m.root = strip e0 :: rest.map strip := by
      rw [items_def, hent, List.map_cons]
    have hshape : ((ctxPre ctx).map strip ++ items l) ++ strip d ::
        (items r ++ (ctxPost ctx).map strip) = items m.root := by
      rw [hOld]
      simp [List.append_assoc]
    by_cases hbid : (m.bIter == some d.id) = true
    · have heid : e0.id = d.id := by
        rw [hbOld] at hbid
        simpa using hbid
      have hfirst : (items m.root).head? = some (strip d) := by
        have he0m : e0 ∈ entries m.root := by
          rw [hent]
          exact List.mem_cons_self e0 rest
        have hdm : d ∈ entries m.root := by
          rw [← hplug]
          exact keys_plug_mem ctx l d r
        have hds := nodup_id_unique (entries m.root) hnd e0 he0m d hdm heid
        rw [holdI, List.head?_cons, hds]
      have hP0 : (ctxPre ctx).map strip ++ items l = [] := by
        refine mid_head_nil_proj (fun e => e.1)
          ((ctxPre ctx).map strip ++ items l)
          (items r ++ (ctxPost ctx).map strip) (strip d) ?_ ?_
        · rw [hshape, ← map_id_entries]
          exact hnd
        · rw [hshape, hfirst]
      rcases List.append_eq_nil.mp hP0 with ⟨hPre, hIL⟩
      cases r with
      | node rl rd rr =>
        have hbR : (eraseTrivial m ctx d (Tree.node rl rd rr) child).bIter =
            (leftmost (Tree.node rl rd rr)).map ND.id := by
          rw [eraseTrivial.eq_def]
          cases hlm : leftmost (Tree.node rl rd rr) with
          | none =>
            exfalso
            rw [leftmost_head] at hlm
            rcases her : entries (Tree.node rl rd rr) with _ | _
            · exact absurd her (entries_ne_nil rl rd rr)
            · rw [her] at hlm
              simp at hlm
          | some md => cases ctx <;> simp [hbid, hlm]
        rw [hbR, leftmost_head]
        rcases her : entries (Tree.node rl rd rr) with _ | ⟨er, errest⟩
        · exact absurd her (entries_ne_nil rl rd rr)
        · rw [hroot', hPre, hIL]
          have hir : items (Tree.node rl rd rr) =
              strip er :: errest.map strip := by
            rw [items_def, her, List.map_cons]
          rw [hir]
          simp [strip]
      | nil =>
        cases ctx with
        | nil =>
          have hbR : (eraseTrivial m [] d Tree.nil child).bIter = none := by
            rw [eraseTrivial.eq_def]
            simp [hbid]
          have hEL : entries l = [] := by
            have h0 := hIL
            rw [items_def] at h0
            exact List.map_eq_nil_iff.mp h0
          rw [hbR, hroot']
          simp [ctxPre, ctxPost, hEL, items, entries]
        | cons f fs =>
          have hbR : (eraseTrivial m (f :: fs) d Tree.nil child).bIter =
              some f.d.id := by
            rw [eraseTrivial.eq_def]
            simp [hbid]
          have hPre2 : ctxPre (f :: fs) = [] := by
            rcases hmp : ctxPre (f :: fs) with _ | ⟨x, xs⟩
            · rfl
            · rw [hmp] at hPre
              simp at hPre
          have hdir : f.dir = Dir.l := by
            cases hf : f.dir
            · rfl
            · exfalso
              rw [ctxPre.eq_def] at hPre2
              simp only [hf] at hPre2
              rcases List.append_eq_nil.mp hPre2 with ⟨-, habs⟩
              rcases List.append_eq_nil.mp habs with ⟨-, habs2⟩
              simp at habs2
          rw [hbR, hroot', hPre, hIL]
          rw [ctxPost.eq_def]
          simp only [hdir]
          simp [strip, items, entries]
    · have hbR : (eraseTrivial m ctx d r child).bIter = m.bIter := by
        rw [eraseTrivial.eq_def]
        cases ctx <;> simp [hbid]
      have hne : ¬((ctxPre ctx).map strip ++ items l = []) := by
        intro hP0
        rcases List.append_eq_nil.mp hP0 with ⟨hPre, hIL⟩
        have hh : (items m.root).head? = some (strip d) := by
          rw [hOld, hPre, hIL]
          simp
        rw [holdI, List.head?_cons] at hh
        have heq0 : strip e0 = strip d := Option.some.inj hh
        apply hbid
        rw [hbOld]
        have hid0 : e0.id = d.id := congrArg (fun e => e.1) heq0
        simp [hid0]
      have hheads : (items (eraseTrivial m ctx d r child).root).head? =
          (items m.root).head? := by
        rw [hroot', hOld]
        have h1 : (ctxPre ctx).map strip ++ (items l ++ items r) ++
            (ctxPost ctx).map strip =
            ((ctxPre ctx).map strip ++ items l) ++
              (items r ++ (ctxPost ctx).map strip) := by
          simp [List.append_assoc]
        have h2 : (ctxPre ctx).map strip ++
            (items l ++ strip d :: items r) ++ (ctxPost ctx).map strip =
            ((ctxPre ctx).map strip ++ items l) ++
              (strip d :: items r ++ (ctxPost ctx).map strip) := by
          simp [List.append_assoc]
        rw [h1, h2]
        exact head?_append_congr _ _ _ hne
      rw [hbR, hheads, ← head_id_entries, ← hb]
  · rw [map_id_entries]
    have hndI : ((items m.root).map (fun e => e.1)).Nodup := by
      rw [← map_id_entries]
      exact hnd
    exact hndI.sublist (hsubRoot.map (fun e => e.1))
  · intro d2 hd2
    rw [hnid]
    have hd2i : d2.id ∈ (items (eraseTrivial m ctx d r child).root).map
        (fun e => e.1) := by
      rw [← map_id_entries]
      exact List.mem_map_of_mem ND.id hd2
    have : d2.id ∈ (items m.root).map (fun e => e.1) :=
      (hsubRoot.map (fun e => e.1)).subset hd2i
    rw [← map_id_entries] at this
    rcases List.mem_map.1 this with ⟨d3, hd3, hd3i⟩
    rw [← hd3i]
    exact hbd d3 hd3
  · rw [hsz', hsz, usub_mod holdlen]
    have hlnew : (entries (eraseTrivial m ctx d r child).root).length =
        (entries m.root).length - 1 := by
      rw [length_entries_items, length_entries_items, hroot', hOld]
      simp
      omega
    rw [hlnew]
theorem inv_erase {K V : Type} [LinearOrder K] (m : MapS K V) (k : K)
    (hInv : Inv m) : Inv (erase ltd m k) := by
  rcases hr0 : m.root with _ | ⟨l0, d0, r0⟩
  · have hres : erase ltd m k = m := by
      rw [erase.eq_def, hr0]
    rw [hres]
    exact hInv
  · rcases hfz : findNodeZ ltd (Tree.node l0 d0 r0) k [] with _ | ⟨ctx, t⟩
    · have hres : erase ltd m k = m := by
        rw [erase.eq_def, hr0, hfz]
      rw [hres]
      exact hInv
    · rcases findNodeZ_sound (Tree.node l0 d0 r0) k [] ctx t hfz with
        ⟨⟨l, d, r, rfl, hdk⟩, hplug0⟩
      have hplug : plugAll ctx (Tree.node l d r) = m.root := by
        rw [hr0]
        exact hplug0
      rcases l with _ | ⟨ll, lld, llr⟩
      · rcases r with _ | ⟨rl, rd, rr⟩
        · have hres : erase ltd m k = eraseTrivial m ctx d Tree.nil Tree.nil := by
            rw [erase.eq_def, hr0, hfz]
          rw [hres]
          exact inv_eraseTrivial m ctx Tree.nil d Tree.nil Tree.nil hInv
            hplug (by simp [items, entries])
        · have hres : erase ltd m k =
              eraseTrivial m ctx d (Tree.node rl rd rr)
                (Tree.node rl rd rr) := by
            rw [erase.eq_def, hr0, hfz]
          rw [hres]
          exact inv_eraseTrivial m ctx Tree.nil d (Tree.node rl rd rr)
            (Tree.node rl rd rr) hInv hplug (by simp [items, entries])
      · rcases r with _ | ⟨rl, rd, rr⟩
        · have hres : erase ltd m k =
              eraseTrivial m ctx d Tree.nil (Tree.node ll lld llr) := by
            rw [erase.eq_def, hr0, hfz]
          rw [hres]
          exact inv_eraseTrivial m ctx (Tree.node ll lld llr) d Tree.nil
            (Tree.node ll lld llr) hInv hplug (by simp [items, entries])
        · -- two children: splice the in-order successor
          rcases hInv with ⟨hs, hb, hnd, hbd, hsz⟩
          rcases hz3 : leftmostZ rl rd rr [] with ⟨zc, sd, sr⟩
          have hzp := leftmostZ_parts rl rd rr []
          rw [hz3] at hzp
          have hzPre : ctxPre zc = [] := by
            have := hzp.1
            simpa [ctxPre] using this
          have hzp2 : sd :: (entries sr ++ ctxPost zc) =
              entries (Tree.node rl rd rr) := by
            have h0 := hzp.2
            simpa [ctxPost] using h0
          have hzTail : strip sd ::
              (entries sr ++ ctxPost zc).map strip =
              items (Tree.node rl rd rr) := by
            rw [items_def, ← hzp2]
            simp
          set lsub : Tree K V := Tree.node ll lld llr with hlsub
          set d' : ND K V := ⟨d.id, sd.key, d.val, d.level⟩ with hd'
          set itemsTail : List (Nat × K × V) :=
            (entries sr ++ ctxPost zc).map strip with hitail
          have hbit2 : (erase ltd m k).bIter = m.bIter := by
            simp only [erase.eq_def, hr0, hfz, hz3]
            cases zc <;> rfl
          have hsz2 : (erase ltd m k).size = usub m.size 1 := by
            simp only [erase.eq_def, hr0, hfz, hz3]
            cases zc <;> rfl
          have hnid2 : (erase ltd m k).nextId = m.nextId := by
            simp only [erase.eq_def, hr0, hfz, hz3]
            cases zc <;> rfl
          have hRitems : items (erase ltd m k).root =
              (ctxPre ctx).map strip ++
                (items lsub ++ strip d' :: itemsTail) ++
                (ctxPost ctx).map strip := by
            simp only [erase.eq_def, hr0, hfz, hz3]
            cases zc with
            | nil =>
              simp only []
              rw [items_eraseFix, items_plugAll, items_node]
              rw [hitail]
              simp [ctxPost, items_def]
            | cons f fs =>
              simp only []
              rw [items_eraseFix]
              have hsplit : plugAll (fs ++ ⟨Dir.r, d', lsub⟩ :: ctx)
                  (plug f sr) =
                  plugAll ctx (Tree.node lsub d'
                    (plugAll (f :: fs) sr)) := by
                rw [plugAll_append]
                rfl
              rw [hsplit, items_plugAll, items_node, items_plugAll]
              rw [hitail, hzPre]
              simp [items_def]
          have hOld : items m.root =
              (ctxPre ctx).map strip ++
                (items lsub ++ strip d :: strip sd :: itemsTail) ++
                (ctxPost ctx).map strip := by
            rw [← hplug, items_plugAll, items_node, ← hzTail]
          have hlne : items lsub ≠ [] := by
            rw [hlsub]
            simp [items, entries]
          refine ⟨?_, ?_, ?_, ?_, ?_⟩
          · unfold Sorted at hs ⊢
            rw [keys_eq_items] at hs ⊢
            rw [hRitems]
            rw [hOld] at hs
            refine hs.sublist ?_
            simp only [List.map_append, List.map_cons]
            refine List.Sublist.append ?_ (List.Sublist.refl _)
            refine List.Sublist.append (List.Sublist.refl _) ?_
            refine List.Sublist.append (List.Sublist.refl _) ?_
            have hpk : (strip d').2.1 = (strip sd).2.1 := by
              rw [hd']
              rfl
            rw [hpk]
            exact List.Sublist.cons _ (List.Sublist.refl _)
          · rw [hbit2, hb, head_id_entries, head_id_entries, hRitems, hOld]
            have h1 : (ctxPre ctx).map strip ++
                (items lsub ++ strip d' :: itemsTail) ++
                (ctxPost ctx).map strip =
                ((ctxPre ctx).map strip ++ items lsub) ++
                  (strip d' :: itemsTail ++ (ctxPost ctx).map strip) := by
              simp [List.append_assoc]
            have h2 : (ctxPre ctx).map strip ++
                (items lsub ++ strip d :: strip sd :: itemsTail) ++
                (ctxPost ctx).map strip =
                ((ctxPre ctx).map strip ++ items lsub) ++
                  (strip d :: strip sd :: itemsTail ++
                    (ctxPost ctx).map strip) := by
              simp [List.append_assoc]
            rw [h1, h2]
            have hne : (ctxPre ctx).map strip ++ items lsub ≠ [] := by
              intro hh
              exact hlne (List.append_eq_nil.mp hh).2
            exact congrArg (Option.map (fun e => e.1))
              (head?_append_congr ((ctxPre ctx).map strip ++ items lsub)
                (strip d :: strip sd :: itemsTail ++ (ctxPost ctx).map strip)
                (strip d' :: itemsTail ++ (ctxPost ctx).map strip) hne)
          · have hsubIds : List.Sublist
                ((items (erase ltd m k).root).map (fun e => e.1))
                ((items m.root).map (fun e => e.1)) := by
              rw [hRitems, hOld]
              simp only [List.map_append, List.map_cons]
              refine List.Sublist.append ?_ (List.Sublist.refl _)
              refine List.Sublist.append (List.Sublist.refl _) ?_
              refine List.Sublist.append (List.Sublist.refl _) ?_
              have hpi : (strip d').1 = (strip d).1 := by
                rw [hd']
                rfl
              rw [hpi]
              exact List.Sublist.cons₂ _ (List.Sublist.cons _
                (List.Sublist.refl _))
            rw [map_id_entries]
            have hndI : ((items m.root).map (fun e => e.1)).Nodup := by
              rw [← map_id_entries]
              exact hnd
            exact hndI.sublist hsubIds
          · have hsubIds : List.Sublist
                ((items (erase ltd m k).root).map (fun e => e.1))
                ((items m.root).map (fun e => e.1)) := by
              rw [hRitems, hOld]
              simp only [List.map_append, List.map_cons]
              refine List.Sublist.append ?_ (List.Sublist.refl _)
              refine List.Sublist.append (List.Sublist.refl _) ?_
              refine List.Sublist.append (List.Sublist.refl _) ?_
              have hpi : (strip d').1 = (strip d).1 := by
                rw [hd']
                rfl
              rw [hpi]
              exact List.Sublist.cons₂ _ (List.Sublist.cons _
                (List.Sublist.refl _))
            intro d2 hd2
            rw [hnid2]
            have hd2i : d2.id ∈ (items (erase ltd m k).root).map
                (fun e => e.1) := by
              rw [← map_id_entries]
              exact List.mem_map_of_mem ND.id hd2
            have hmem2 : d2.id ∈ (items m.root).map (fun e => e.1) :=
              hsubIds.subset hd2i
            rw [← map_id_entries] at hmem2
            rcases List.mem_map.1 hmem2 with ⟨d3, hd3, hd3i⟩
            rw [← hd3i]
            exact hbd d3 hd3
          · have holdlen : 1 ≤ (entries m.root).length := by
              rw [length_entries_items, hOld]
              simp
              omega
            rw [hsz2, hsz, usub_mod holdlen]
            have hlnew : (entries (erase ltd m k).root).length =
                (entries m.root).length - 1 := by
              rw [length_entries_items, length_entries_items, hRitems, hOld]
              simp
              omega
            rw [hlnew]
theorem copyTree_snd {K V : Type} :
    ∀ (t : Tree K V) (n : Nat), (copyTree t n).2 = n + treeSize t := by
  intro t
  induction t with
  | nil => intro n; simp [copyTree, treeSize]
  | node l d r ihl ihr =>
    intro n
    rw [copyTree]
    simp only [treeSize]
    rw [ihr, ihl]
    omega

theorem copyTree_keys {K V : Type} :
    ∀ (t : Tree K V) (n : Nat), keys (copyTree t n).1 = keys t := by
  intro t
  induction t with
  | nil => intro n; rfl
  | node l d r ihl ihr =>
    intro n
    rw [copyTree]
    simp only [keys_node]
    rw [← keys_node]
    simp only [keys_node, ihl, ihr]

theorem copyTree_len {K V : Type} :
    ∀ (t : Tree K V) (n : Nat),
      (entries (copyTree t n).1).length = (entries t).length := by
  intro t
  induction t with
  | nil => intro n; rfl
  | node l d r ihl ihr =>
    intro n
    rw [copyTree]
    simp only [entries, List.length_append, List.length_cons]
    rw [ihl, ihr]

theorem copyTree_ids {K V : Type} :
    ∀ (t : Tree K V) (n : Nat),
      (∀ i ∈ (entries (copyTree t n).1).map ND.id,
        n ≤ i ∧ i < (copyTree t n).2) ∧
      ((entries (copyTree t n).1).map ND.id).Nodup := by
  intro t
  induction t with
  | nil => intro n; exact ⟨by simp [copyTree, entries], by simp [copyTree, entries]⟩
  | node l d r ihl ihr =>
    intro n
    rw [copyTree]
    have h2l := copyTree_snd l (n + 1)
    have h2r := copyTree_snd r (copyTree l (n + 1)).2
    rcases ihl (n + 1) with ⟨hbl, hnl⟩
    rcases ihr (copyTree l (n + 1)).2 with ⟨hbr, hnr⟩
    constructor
    · intro i hi
      simp only [entries, List.map_append, List.map_cons, List.mem_append,
        List.mem_cons] at hi
      rcases hi with hi | hi | hi
      · rcases hbl i hi with ⟨ha, hb⟩
        refine ⟨by omega, ?_⟩
        rw [h2r]
        omega
      · rw [hi]
        dsimp only
        rw [h2r, h2l]
        omega
      · rcases hbr i hi with ⟨ha, hb⟩
        rw [h2l] at ha
        exact ⟨by omega, hb⟩
    · simp only [entries, List.map_append, List.map_cons]
      rw [List.nodup_middle, List.nodup_cons]
      constructor
      · intro hmem
        rcases List.mem_append.1 hmem with h | h
        · rcases hbl n h with ⟨ha, -⟩
          omega
        · rcases hbr n h with ⟨ha, -⟩
          rw [h2l] at ha
          omega
      · rw [List.nodup_append]
        refine ⟨hnl, hnr, ?_⟩
        intro i hil hir
        rcases hbl i hil with ⟨-, hb⟩
        rcases hbr i hir with ⟨ha, -⟩
        omega

theorem inv_copy {K V : Type} [LinearOrder K] (m : MapS K V)
    (hInv : Inv m) : Inv (copyMap m) := by
  rcases hInv with ⟨hs, hb, hnd, hbd, hsz⟩
  refine ⟨?_, ?_, ?_, ?_, ?_⟩
  · unfold Sorted at hs ⊢
    have : keys (copyMap m).root = keys m.root := copyTree_keys m.root 0
    rw [this]
    exact hs
  · show (leftmost (copyTree m.root 0).1).map ND.id = _
    rw [leftmost_head]
    rfl
  · exact (copyTree_ids m.root 0).2
  · intro d2 hd2
    exact ((copyTree_ids m.root 0).1 d2.id
      (List.mem_map_of_mem ND.id hd2)).2
  · show m.size = (entries (copyTree m.root 0).1).length % 2 ^ 64
    rw [copyTree_len m.root 0]
    exact hsz

theorem inv_move {K V : Type} [LinearOrder K] (m : MapS K V)
    (hInv : Inv m) : Inv (moveMap m).1 ∧ Inv (moveMap m).2 := by
  constructor
  · exact hInv
  · refine ⟨?_, ?_, ?_, ?_, ?_⟩ <;> simp [moveMap, Sorted, keys, entries]

theorem reachable_inv {K V : Type} [LinearOrder K] (m : MapS K V)
    (h : Reachable m) : Inv m := by
  induction h with
  | empty => exact inv_mapEmpty
  | ins m k v _ ih => exact inv_insert m k v ih
  | del m k _ ih => exact inv_erase m k ih
  | copy m _ ih => exact inv_copy m ih
  | mvDst m _ ih => exact (inv_move m ih).1
  | mvSrc m _ ih => exact (inv_move m ih).2
/-! ## Traversal: `Map::beginNode` and `Map::next`

Nodes are addressed by their path from the root (`Dir.l` / `Dir.r` steps);
the parent pointer of the node at `p ++ [d]` is the node at `p`, and that
parent's right child is the node exactly when `d = Dir.r` — the
parent-consistency invariant of the pointer structure.  `nextP` is
`Map::next` in this addressing: with a right child, the leftmost descendant
of the right child; otherwise climb parent links while the node is a right
child and stop at the first ancestor reached from its left child, or at the
end marker (`none`). -/

/-- The subtree reached from `t` by following the path `p` (child pointer
dereferencing); `none` when a null pointer is crossed. -/
def subtreeAt {K V : Type} : Tree K V → List Dir → Option (Tree K V)
  | t, [] => some t
  | Tree.nil, _ :: _ => none
  | Tree.node l _ _, Dir.l :: p => subtreeAt l p
  | Tree.node _ _ r, Dir.r :: p => subtreeAt r p

/-- Payload of the node addressed by path `p`. -/
def dataAt {K V : Type} (t : Tree K V) (p : List Dir) : Option (ND K V) :=
  match subtreeAt t p with
  | some (Tree.node _ d _) => some d
  | _ => none

/-- Path of the leftmost node of `t` (the `while (node->left) node =
node->left` walk of `Map::beginNode` and of `Map::next`). -/
def leftSpinePath {K V : Type} : Tree K V → List Dir
  | Tree.nil => []
  | Tree.node Tree.nil _ _ => []
  | Tree.node (Tree.node ll ld lr) _ _ =>
      Dir.l :: leftSpinePath (Tree.node ll ld lr)

/-- The parent-climbing loop of `Map::next` on the reversed path (innermost
step first): drop the steps along which the node is a right child; at the
first left-child step return the remaining (parent) path; `none` when the
root is passed without one (`parent == nullptr`, the end marker). -/
def climbRev : List Dir → Option (List Dir)
  | [] => none
  | Dir.r :: q => climbRev q
  | Dir.l :: q => some q.reverse

/-- `Map::next` of the node at path `p`: leftmost node of the right subtree
when the right child exists, else the climb; `none` is the end marker
(including the unreachable case of an invalid path). -/
def nextP {K V : Type} (t : Tree K V) (p : List Dir) : Option (List Dir) :=
  match subtreeAt t p with
  | some (Tree.node _ _ Tree.nil) => climbRev p.reverse
  | some (Tree.node _ _ (Tree.node rl rd rr)) =>
      some (p ++ Dir.r :: leftSpinePath (Tree.node rl rd rr))
  | _ => none

/-- Path of `Map::beginNode(root_)`: the leftmost node, or the end marker on
an empty tree. -/
def beginP {K V : Type} : Tree K V → Option (List Dir)
  | Tree.nil => none
  | Tree.node l d r => some (leftSpinePath (Tree.node l d r))

/-- Iterate `Map::next` from a starting position, collecting the visited
payloads (fuel-bounded; `none` is the end marker). -/
def walkP {K V : Type} (t : Tree K V) : Option (List Dir) → Nat → List (ND K V)
  | _, 0 => []
  | none, _ + 1 => []
  | some p, n + 1 =>
    match dataAt t p with
    | none => []
    | some d => d :: walkP t (nextP t p) n

/-- The paths of all nodes of `t` in in-order. -/
def pathsInorder {K V : Type} : Tree K V → List (List Dir)
  | Tree.nil => []
  | Tree.node l _ r =>
      (pathsInorder l).map (List.cons Dir.l) ++
        [] :: (pathsInorder r).map (List.cons Dir.r)

theorem pathsInorder_data {K V : Type} :
    ∀ t : Tree K V, (pathsInorder t).map (dataAt t) = (entries t).map some := by
  intro t
  induction t with
  | nil => rfl
  | node l d r ihl ihr =>
    simp only [pathsInorder, entries, List.map_append, List.map_cons,
      List.map_map]
    have hl : List.map (dataAt (Tree.node l d r) ∘ List.cons Dir.l)
        (pathsInorder l) = List.map (dataAt l) (pathsInorder l) :=
      List.map_congr_left (fun p hp => rfl)
    have hr : List.map (dataAt (Tree.node l d r) ∘ List.cons Dir.r)
        (pathsInorder r) = List.map (dataAt r) (pathsInorder r) :=
      List.map_congr_left (fun p hp => rfl)
    rw [hl, hr, ihl, ihr]
    rfl

theorem pathsInorder_valid {K V : Type} :
    ∀ (t : Tree K V) (p : List Dir), p ∈ pathsInorder t →
      ∃ a b c, subtreeAt t p = some (Tree.node a b c) := by
  intro t
  induction t with
  | nil => intro p hp; simp [pathsInorder] at hp
  | node l d r ihl ihr =>
    intro p hp
    simp only [pathsInorder, List.mem_append, List.mem_cons, List.mem_map] at hp
    rcases hp with ⟨q, hq, rfl⟩ | rfl | ⟨q, hq, rfl⟩
    · exact ihl q hq
    · exact ⟨l, d, r, rfl⟩
    · exact ihr q hq

theorem pathsInorder_ne_nil {K V : Type} (l : Tree K V) (d : ND K V)
    (r : Tree K V) : pathsInorder (Tree.node l d r) ≠ [] := by
  simp [pathsInorder]

theorem pathsInorder_head {K V : Type} :
    ∀ (l : Tree K V) (d : ND K V) (r : Tree K V),
      (pathsInorder (Tree.node l d r)).head? =
        some (leftSpinePath (Tree.node l d r)) := by
  intro l
  induction l with
  | nil => intro d r; rfl
  | node a e b iha ihb =>
    intro d r
    have hne : pathsInorder (Tree.node a e b) ≠ [] := pathsInorder_ne_nil a e b
    have hmne : (pathsInorder (Tree.node a e b)).map (List.cons Dir.l) ≠ [] := by
      simp [hne]
    show ((pathsInorder (Tree.node a e b)).map (List.cons Dir.l) ++ _).head? = _
    rw [List.head?_append_of_ne_nil _ hmne, List.head?_map, iha e b]
    rfl

theorem dataAt_leftSpine {K V : Type} :
    ∀ (l : Tree K V) (d : ND K V) (r : Tree K V),
      dataAt (Tree.node l d r) (leftSpinePath (Tree.node l d r)) =
        leftmost (Tree.node l d r) := by
  intro l
  induction l with
  | nil => intro d r; rfl
  | node a e b iha ihb =>
    intro d r
    show dataAt (Tree.node (Tree.node a e b) d r)
        (Dir.l :: leftSpinePath (Tree.node a e b)) = _
    have h1 : dataAt (Tree.node (Tree.node a e b) d r)
        (Dir.l :: leftSpinePath (Tree.node a e b)) =
        dataAt (Tree.node a e b) (leftSpinePath (Tree.node a e b)) := rfl
    rw [h1, iha e b]
    rfl
theorem climbRev_append_some :
    ∀ (u v q : List Dir), climbRev u = some q →
      climbRev (u ++ v) = some (v.reverse ++ q) := by
  intro u
  induction u with
  | nil => intro v q h; simp [climbRev] at h
  | cons x u ih =>
    intro v q h
    cases x with
    | l =>
      simp only [climbRev, Option.some.injEq] at h
      simp only [List.cons_append, climbRev, Option.some.injEq]
      rw [← h]
      simp
    | r =>
      simp only [climbRev] at h
      simp only [List.cons_append, climbRev]
      exact ih v q h

theorem climbRev_append_none :
    ∀ (u v : List Dir), climbRev u = none → climbRev (u ++ v) = climbRev v := by
  intro u
  induction u with
  | nil => intro v _; rfl
  | cons x u ih =>
    intro v h
    cases x with
    | l => simp [climbRev] at h
    | r =>
      simp only [climbRev] at h
      simp only [List.cons_append, climbRev]
      exact ih v h

theorem nextP_consL_some {K V : Type} {l : Tree K V} {d : ND K V}
    {r : Tree K V} {p q : List Dir} {a : Tree K V} {b : ND K V} {c : Tree K V}
    (hsub : subtreeAt l p = some (Tree.node a b c))
    (h : nextP l p = some q) :
    nextP (Tree.node l d r) (Dir.l :: p) = some (Dir.l :: q) := by
  have hsub' : subtreeAt (Tree.node l d r) (Dir.l :: p) =
      some (Tree.node a b c) := hsub
  cases c with
  | nil =>
    rw [nextP, hsub] at h
    rw [nextP, hsub']
    simp only [List.reverse_cons]
    rw [climbRev_append_some p.reverse [Dir.l] q h]
    rfl
  | node cl cd cr =>
    rw [nextP, hsub] at h
    rw [nextP, hsub']
    simp only [Option.some.injEq] at h ⊢
    rw [← h]
    rfl

theorem nextP_consL_none {K V : Type} {l : Tree K V} {d : ND K V}
    {r : Tree K V} {p : List Dir} {a : Tree K V} {b : ND K V} {c : Tree K V}
    (hsub : subtreeAt l p = some (Tree.node a b c))
    (h : nextP l p = none) :
    nextP (Tree.node l d r) (Dir.l :: p) = some [] := by
  have hsub' : subtreeAt (Tree.node l d r) (Dir.l :: p) =
      some (Tree.node a b c) := hsub
  cases c with
  | nil =>
    rw [nextP, hsub] at h
    rw [nextP, hsub']
    simp only [List.reverse_cons]
    rw [climbRev_append_none p.reverse [Dir.l] h]
    rfl
  | node cl cd cr =>
    rw [nextP, hsub] at h
    simp at h

theorem nextP_consR_some {K V : Type} {l : Tree K V} {d : ND K V}
    {r : Tree K V} {p q : List Dir} {a : Tree K V} {b : ND K V} {c : Tree K V}
    (hsub : subtreeAt r p = some (Tree.node a b c))
    (h : nextP r p = some q) :
    nextP (Tree.node l d r) (Dir.r :: p) = some (Dir.r :: q) := by
  have hsub' : subtreeAt (Tree.node l d r) (Dir.r :: p) =
      some (Tree.node a b c) := hsub
  cases c with
  | nil =>
    rw [nextP, hsub] at h
    rw [nextP, hsub']
    simp only [List.reverse_cons]
    rw [climbRev_append_some p.reverse [Dir.r] q h]
    rfl
  | node cl cd cr =>
    rw [nextP, hsub] at h
    rw [nextP, hsub']
    simp only [Option.some.injEq] at h ⊢
    rw [← h]
    rfl

theorem nextP_consR_none {K V : Type} {l : Tree K V} {d : ND K V}
    {r : Tree K V} {p : List Dir} {a : Tree K V} {b : ND K V} {c : Tree K V}
    (hsub : subtreeAt r p = some (Tree.node a b c))
    (h : nextP r p = none) :
    nextP (Tree.node l d r) (Dir.r :: p) = none := by
  have hsub' : subtreeAt (Tree.node l d r) (Dir.r :: p) =
      some (Tree.node a b c) := hsub
  cases c with
  | nil =>
    rw [nextP, hsub] at h
    rw [nextP, hsub']
    simp only [List.reverse_cons]
    rw [climbRev_append_none p.reverse [Dir.r] h]
    rfl
  | node cl cd cr =>
    rw [nextP, hsub] at h
    simp at h

theorem chain_lift {K V : Type} (t sub : Tree K V) (f : List Dir → List Dir)
    (hstep : ∀ p q, p ∈ pathsInorder sub → nextP sub p = some q →
      nextP t (f p) = some (f q))
    (hch : List.Chain' (fun p q => nextP sub p = some q) (pathsInorder sub)) :
    List.Chain' (fun p q => nextP t p = some q)
      ((pathsInorder sub).map f) := by
  rw [List.chain'_map]
  rw [List.chain'_iff_get] at hch ⊢
  intro i hi
  exact hstep _ _ (List.get_mem (pathsInorder sub) i (by omega)) (hch i hi)
theorem getLast_cons_ne_nil {A : Type} (a : A) (l : List A) (h : l ≠ []) :
    (a :: l).getLast? = l.getLast? := by
  cases l with
  | nil => exact absurd rfl h
  | cons b t => exact List.getLast?_cons_cons

theorem pathsInorder_chain {K V : Type} :
    ∀ t : Tree K V,
      List.Chain' (fun p q => nextP t p = some q) (pathsInorder t) ∧
      (∀ p, (pathsInorder t).getLast? = some p → nextP t p = none) := by
  intro t
  induction t with
  | nil => exact ⟨List.chain'_nil, fun p hp => by simp [pathsInorder] at hp⟩
  | node l d r ihl ihr =>
    have hA : List.Chain' (fun p q => nextP (Tree.node l d r) p = some q)
        ((pathsInorder l).map (List.cons Dir.l)) := by
      apply chain_lift (Tree.node l d r) l (List.cons Dir.l) _ ihl.1
      intro p q hp hq
      obtain ⟨a, b, c, hsub⟩ := pathsInorder_valid l p hp
      exact nextP_consL_some hsub hq
    have hB : List.Chain' (fun p q => nextP (Tree.node l d r) p = some q)
        ((pathsInorder r).map (List.cons Dir.r)) := by
      apply chain_lift (Tree.node l d r) r (List.cons Dir.r) _ ihr.1
      intro p q hp hq
      obtain ⟨a, b, c, hsub⟩ := pathsInorder_valid r p hp
      exact nextP_consR_some hsub hq
    have hrootB : ∀ y ∈ ((pathsInorder r).map (List.cons Dir.r)).head?,
        nextP (Tree.node l d r) [] = some y := by
      intro y hy
      cases r with
      | nil => simp [pathsInorder] at hy
      | node rl rd rr =>
        rw [List.head?_map, pathsInorder_head rl rd rr] at hy
        simp only [Option.map_some, Option.mem_def, Option.some.injEq] at hy
        rw [nextP]
        show (match subtreeAt (Tree.node l d (Tree.node rl rd rr)) [] with
          | some (Tree.node _ _ Tree.nil) => climbRev [].reverse
          | some (Tree.node _ _ (Tree.node a b c)) =>
              some ([] ++ Dir.r :: leftSpinePath (Tree.node a b c))
          | _ => none) = some y
        rw [← hy]
        rfl
    constructor
    · show List.Chain' _ ((pathsInorder l).map (List.cons Dir.l) ++
        [] :: (pathsInorder r).map (List.cons Dir.r))
      rw [List.chain'_append]
      refine ⟨hA, ?_, ?_⟩
      · rw [List.chain'_cons']
        exact ⟨hrootB, hB⟩
      · intro x hx y hy
        rw [List.getLast?_map] at hx
        simp only [List.head?_cons, Option.mem_def, Option.some.injEq] at hy
        subst hy
        rcases Option.map_eq_some'.1 hx with ⟨p, hp, rfl⟩
        have hmem : p ∈ pathsInorder l := List.mem_of_mem_getLast? hp
        obtain ⟨a, b, c, hsub⟩ := pathsInorder_valid l p hmem
        exact nextP_consL_none hsub (ihl.2 p hp)
    · intro p hp
      cases r with
      | nil =>
        show nextP (Tree.node l d Tree.nil) p = none
        have hlast : ((pathsInorder l).map (List.cons Dir.l) ++
            [] :: (pathsInorder (Tree.nil : Tree K V)).map
              (List.cons Dir.r)).getLast? = some [] := by
          rw [List.getLast?_append_of_ne_nil _ (by simp)]
          rfl
        rw [show pathsInorder (Tree.node l d Tree.nil) =
          (pathsInorder l).map (List.cons Dir.l) ++
            [] :: (pathsInorder (Tree.nil : Tree K V)).map (List.cons Dir.r)
          from rfl, hlast] at hp
        simp only [Option.some.injEq] at hp
        subst hp
        rfl
      | node rl rd rr =>
        have hBne : (pathsInorder (Tree.node rl rd rr)).map (List.cons Dir.r)
            ≠ [] := by
          simp [pathsInorder_ne_nil]
        rw [show pathsInorder (Tree.node l d (Tree.node rl rd rr)) =
          (pathsInorder l).map (List.cons Dir.l) ++
            [] :: (pathsInorder (Tree.node rl rd rr)).map (List.cons Dir.r)
          from rfl] at hp
        rw [List.getLast?_append_of_ne_nil _ (by simp),
          getLast_cons_ne_nil _ _ hBne, List.getLast?_map] at hp
        rcases Option.map_eq_some'.1 hp with ⟨q, hq, rfl⟩
        have hmem : q ∈ pathsInorder (Tree.node rl rd rr) :=
          List.mem_of_mem_getLast? hq
        obtain ⟨a, b, c, hsub⟩ := pathsInorder_valid _ q hmem
        exact nextP_consR_none hsub (ihr.2 q hq)
theorem walkP_spec {K V : Type} (t : Tree K V) :
    ∀ (ps : List (List Dir)) (es : List (ND K V)) (n : Nat),
      List.Chain' (fun p q => nextP t p = some q) ps →
      (∀ p, ps.getLast? = some p → nextP t p = none) →
      ps.map (dataAt t) = es.map some →
      ps.length ≤ n →
      walkP t ps.head? n = es := by
  intro ps
  induction ps with
  | nil =>
    intro es n _ _ hdata _
    have hes : es = [] := by
      cases es with
      | nil => rfl
      | cons e es' => simp at hdata
    subst hes
    cases n <;> rfl
  | cons p ps' ih =>
    intro es n hch hterm hdata hlen
    cases es with
    | nil => simp at hdata
    | cons e es' =>
      simp only [List.map_cons, List.cons.injEq] at hdata
      rcases hdata with ⟨hde, hdata'⟩
      cases n with
      | zero => simp at hlen
      | succ n' =>
        show walkP t (some p) (n' + 1) = e :: es'
        rw [walkP, hde]
        cases ps' with
        | nil =>
          have hnone : nextP t p = none := hterm p rfl
          have hes' : es' = [] := by
            cases es' with
            | nil => rfl
            | cons x xs => simp at hdata'
          subst hes'
          rw [hnone]
          cases n' <;> rfl
        | cons q ps'' =>
          rw [List.chain'_cons] at hch
          rw [hch.1]
          have hih := ih es' n' hch.2
            (fun x hx => hterm x (by
              rw [getLast_cons_ne_nil p (q :: ps'') (by simp)]
              exact hx))
            hdata'
            (by simp at hlen ⊢; omega)
          simpa using hih

theorem walk_begin_entries {K V : Type} (t : Tree K V) (n : Nat)
    (hn : (entries t).length ≤ n) :
    walkP t (beginP t) n = entries t := by
  have hlen : (pathsInorder t).length = (entries t).length := by
    have h := congrArg List.length (pathsInorder_data t)
    simpa using h
  cases t with
  | nil => cases n <;> rfl
  | node l d r =>
    have hb : beginP (Tree.node l d r) =
        (pathsInorder (Tree.node l d r)).head? := by
      rw [pathsInorder_head l d r]
      rfl
    rw [hb]
    exact walkP_spec (Tree.node l d r) (pathsInorder (Tree.node l d r))
      (entries (Tree.node l d r)) n
      (pathsInorder_chain (Tree.node l d r)).1
      (pathsInorder_chain (Tree.node l d r)).2
      (pathsInorder_data (Tree.node l d r))
      (by rw [hlen]; exact hn)

theorem begin_dataAt {K V : Type} (t : Tree K V) :
    ((beginP t).bind (dataAt t)) = (entries t).head? := by
  cases t with
  | nil => rfl
  | node l d r =>
    show (dataAt (Tree.node l d r) (leftSpinePath (Tree.node l d r))) = _
    rw [dataAt_leftSpine l d r, leftmost_head]
/-! ## The claims -/

/-- The three-element map built by inserting `2 ↦ 20`, `1 ↦ 10`,
`3 ↦ 30`: its root (key `2`, node `0`) has two children. -/
def c2map3 : MapS Nat Nat :=
  (insert ltd beqd (insert ltd beqd (insert ltd beqd
    (mapEmpty (K := Nat) (V := Nat)) 2 20).1 1 10).1 3 30).1

/-- `c2map3` after `erase 2`, which takes the two-children path. -/
def c2map4 : MapS Nat Nat := erase ltd c2map3 2

/-- Claim C2: erasing key `2` from `{2 ↦ 20, 1 ↦ 10, 3 ↦ 30}` takes the
two-children path; the successor (key `3`, mapped value `30` before the
erase) is spliced out and the erased node object (node `0`) is retained —
but the retained node ends up holding the successor's key with the ERASED
key's mapped value: afterwards looking up the successor's key `3` yields
`20`, not its original mapped value `30`, which is lost.  (The source swaps
the two value pointers and then assigns the retained pair's `.second` from
the erased pair's, clobbering the successor's value.) -/
theorem c2_erase_two_children_value :
    (findNodeE ltd c2map3.root 3).map (fun d => (d.key, d.val)) =
      some (3, 30) ∧
    (findNodeE ltd c2map4.root 3).map (fun d => (d.key, d.val)) =
      some (3, 20) ∧
    (findNodeE ltd c2map4.root 3).map (fun d => (d.key, d.val)) ≠
      some (3, 30) ∧
    (findNodeE ltd c2map4.root 3).map ND.id = some 0 ∧
    items c2map4.root = [(1, 1, 10), (0, 3, 20)] ∧
    (∀ e ∈ items c2map4.root, e.2.2 ≠ 30) := by
  decide

/-- A comparator ordering pairs by their first component only: a strict
weak ordering under which `(0, 0)` and `(0, 1)` are equivalent (neither is
less than the other) while `operator==` distinguishes them. -/
def ltFst : Nat × Nat → Nat × Nat → Bool :=
  fun a b => decide (a.1 < b.1)

/-- The map over keys ordered by `ltFst` holding the single entry
`(0, 0) ↦ 0`. -/
def c3map1 : MapS (Nat × Nat) Nat :=
  (insert ltFst beqd (mapEmpty (K := Nat × Nat) (V := Nat)) (0, 0) 0).1

/-- Claim C3, counterexample: with the first-component comparator `ltFst`,
the key `(0, 1)` is equivalent under the comparator to the stored key
`(0, 0)` (mutual non-less-than), so by the claim `insert ((0, 1), 5)` must
return the existing node with `inserted = false` and change nothing.  The
source instead decides the duplicate check with `operator==`, which
distinguishes the two keys: the insertion takes place (`inserted = true`),
the size grows to `2`, and two comparator-equivalent keys are stored. -/
theorem c3_beq_vs_comparator_cex :
    (ltFst (0, 0) (0, 1) = false ∧ ltFst (0, 1) (0, 0) = false) ∧
    (insert ltFst beqd c3map1 (0, 1) 5).2.2 = true ∧
    (insert ltFst beqd c3map1 (0, 1) 5).1.size = 2 ∧
    (insert ltFst beqd c3map1 (0, 1) 5).1 ≠ c3map1 := by
  decide

/-- Claim C3 (amended): the duplicate check of `Map::insert` is decided
with `operator==` on the key stored at the node where the comparator
descent stops, not by mutual non-less-than alone; when key equality
coincides with comparator equivalence — as for the strict order `ltd` of a
linear order with structural equality `beqd` — insertion of an already
stored key returns a handle to the existing node paired with
`inserted = false`, and the whole map (nodes, links, levels, size, cached
minimum) is unchanged. -/
theorem c3_duplicate_insert_equiv {K V : Type} [LinearOrder K]
    (m : MapS K V) (k : K) (v : V) (d1 : ND K V) (hs : Sorted m.root)
    (hmem : d1 ∈ entries m.root) (hk1 : d1.key = k) :
    insert ltd beqd m k v = (m, d1.id, false) :=
  insert_found m k v d1 hs hmem hk1

/-- The singleton map `{1 ↦ 10}` (node `0`), for the C3 witness. -/
def c3map2 : MapS Nat Nat :=
  (insert ltd beqd (mapEmpty (K := Nat) (V := Nat)) 1 10).1

theorem c3_duplicate_insert_equiv_witness :
    Sorted c3map2.root ∧
    (⟨0, 1, 10, 1⟩ : ND Nat Nat) ∈ entries c3map2.root ∧
    insert ltd beqd c3map2 1 99 = (c3map2, 0, false) :=
  ⟨by unfold Sorted; decide, by decide,
    c3_duplicate_insert_equiv c3map2 1 99 ⟨0, 1, 10, 1⟩
      (by unfold Sorted; decide) (by decide) rfl⟩
/-- Decrement of the level stored at the root of a subtree (used to state
the level rule of the erase walk). -/
def decRight {K V : Type} : Tree K V → Tree K V
  | Tree.nil => Tree.nil
  | Tree.node a e b => Tree.node a { e with level := usub e.level 1 } b

/-- The level-recomputation step exactly as the claim words it (modelled
from the spec, for comparison with the source's `decreaseNodeLevel`): the
ancestor's level drops by one exactly when BOTH children are more than one
level below it (a missing child counting as level 0), and after that
decrement the right child's level drops too if it now equals the REDUCED
level. -/
def decreaseNodeLevelBoth {K V : Type} : Tree K V → Tree K V
  | Tree.nil => Tree.nil
  | Tree.node l d r =>
    if levelOf l + 1 < d.level ∧ levelOf r + 1 < d.level then
      Tree.node l { d with level := d.level - 1 }
        (if levelOf r = d.level - 1 then decRight r else r)
    else
      Tree.node l d r

/-- The subtree at which the two readings diverge: level-2 node with no
left child (left difference 2, more than one) and a level-1 right child
(right difference 1, not more than one). -/
def c4tree : Tree Nat Nat :=
  Tree.node Tree.nil ⟨0, 2, 0, 2⟩
    (Tree.node Tree.nil ⟨1, 3, 0, 1⟩ Tree.nil)

/-- Claim C4, counterexample: on a node whose left child is more than one
level below it but whose right child is exactly one below, the source's
`decreaseNodeLevel` (which fires when EITHER difference exceeds one)
decrements the node's level, while the claim's rule (both children more
than one below) leaves it unchanged — the two disagree, and the source's
result has the level dropped from 2 to 1 with the right child untouched. -/
theorem c4_either_child_cex :
    decreaseNodeLevel c4tree ≠ decreaseNodeLevelBoth c4tree ∧
    decreaseNodeLevelBoth c4tree = c4tree ∧
    decreaseNodeLevel c4tree =
      Tree.node Tree.nil ⟨0, 2, 0, 1⟩
        (Tree.node Tree.nil ⟨1, 3, 0, 1⟩ Tree.nil) := by
  decide

/-- Claim C4 (amended): at each ancestor visited by the erase walk the
level is recomputed as follows — writing `usub` for the source's unsigned
(`std::size_t`) subtraction and level 0 for a missing child, the ancestor's
level is decremented by one exactly when AT LEAST ONE child is more than
one level below it, and in that case the right child's level is also
decremented exactly when it equals the ancestor's PRE-decrement level.
When the recomputation leaves the level unchanged the walk stops there (no
rotations, the tree is reassembled); when it changed, skew is re-applied to
the ancestor, its right child and right-right grandchild, then split to the
ancestor and its right child (`eraseRots`), and the walk moves to the
parent frame. -/
theorem c4_erase_walk_level_rule {K V : Type} (l : Tree K V) (d : ND K V)
    (r : Tree K V) (hd : d.level < 2 ^ 64) :
    (decreaseNodeLevel (Tree.node l d r) =
      if 1 < usub d.level (levelOf l) ∨ 1 < usub d.level (levelOf r) then
        Tree.node l { d with level := usub d.level 1 }
          (if levelOf r = d.level then decRight r else r)
      else
        Tree.node l d r) ∧
    (∀ (ctx : List (Frame K V)) (t : Tree K V),
      levelOf (decreaseNodeLevel t) = levelOf t →
      eraseFix ctx t = plugAll ctx (decreaseNodeLevel t)) ∧
    (∀ (f : Frame K V) (fs : List (Frame K V)) (t : Tree K V),
      levelOf (decreaseNodeLevel t) ≠ levelOf t →
      eraseFix (f :: fs) t =
        eraseFix fs (plug f (eraseRots (decreaseNodeLevel t)))) := by
  have husub0 : usub d.level 0 = d.level := by
    simp only [usub, Nat.sub_zero]
    omega
  refine ⟨?_, ?_, ?_⟩
  · cases l with
    | nil =>
      cases r with
      | nil =>
        by_cases h : 1 < d.level <;>
          simp [decreaseNodeLevel, levelOf, decRight, husub0, h, ite_self]
      | node rl rd rr =>
        by_cases h1 : 1 < d.level <;>
          by_cases h2 : 1 < usub d.level rd.level <;>
            by_cases h3 : rd.level = d.level <;>
              simp [decreaseNodeLevel, levelOf, decRight, husub0, h1, h2,
                h3, beq_iff_eq]
    | node ll ld lr =>
      cases r with
      | nil =>
        by_cases h1 : 1 < usub d.level ld.level <;>
          by_cases h2 : 1 < d.level <;>
            simp [decreaseNodeLevel, levelOf, decRight, husub0, h1, h2, ite_self]
      | node rl rd rr =>
        by_cases h1 : 1 < usub d.level ld.level <;>
          by_cases h2 : 1 < usub d.level rd.level <;>
            by_cases h3 : rd.level = d.level <;>
              simp [decreaseNodeLevel, levelOf, decRight, husub0, h1, h2,
                h3, beq_iff_eq]
  · intro ctx t h
    rw [eraseFix.eq_def]
    dsimp only
    rw [if_pos (beq_iff_eq.mpr h)]
  · intro f fs t h
    rw [eraseFix.eq_def]
    dsimp only
    rw [if_neg (by simp [h])]

theorem c4_erase_walk_level_rule_witness :
    (2 : Nat) < 2 ^ 64 ∧
    (decreaseNodeLevel (Tree.node Tree.nil (⟨0, 2, 0, 2⟩ : ND Nat Nat)
        (Tree.node Tree.nil ⟨1, 3, 0, 1⟩ Tree.nil)) =
      if 1 < usub 2 (levelOf (Tree.nil : Tree Nat Nat)) ∨
          1 < usub 2 (levelOf (Tree.node Tree.nil (⟨1, 3, 0, 1⟩ : ND Nat Nat)
            Tree.nil)) then
        Tree.node Tree.nil ⟨0, 2, 0, usub 2 1⟩
          (if levelOf (Tree.node Tree.nil (⟨1, 3, 0, 1⟩ : ND Nat Nat)
              Tree.nil) = 2 then
            decRight (Tree.node Tree.nil ⟨1, 3, 0, 1⟩ Tree.nil)
          else
            Tree.node Tree.nil ⟨1, 3, 0, 1⟩ Tree.nil)
      else
        Tree.node Tree.nil ⟨0, 2, 0, 2⟩
          (Tree.node Tree.nil ⟨1, 3, 0, 1⟩ Tree.nil)) ∧
    (∀ (ctx : List (Frame Nat Nat)) (t : Tree Nat Nat),
      levelOf (decreaseNodeLevel t) = levelOf t →
      eraseFix ctx t = plugAll ctx (decreaseNodeLevel t)) ∧
    (∀ (f : Frame Nat Nat) (fs : List (Frame Nat Nat)) (t : Tree Nat Nat),
      levelOf (decreaseNodeLevel t) ≠ levelOf t →
      eraseFix (f :: fs) t =
        eraseFix fs (plug f (eraseRots (decreaseNodeLevel t)))) :=
  ⟨by decide,
    c4_erase_walk_level_rule Tree.nil ⟨0, 2, 0, 2⟩
      (Tree.node Tree.nil ⟨1, 3, 0, 1⟩ Tree.nil) (by decide)⟩
/-- Claim C5: on every map produced by a sequence of operations, iterating
`Map::next` (right child's leftmost descendant when the right child exists,
else the first ancestor reached from its left child, else the end marker)
from `begin()` — the leftmost node, where the cached `b_iter_` points —
visits exactly the stored nodes in in-order, and the visited keys are
strictly ascending. -/
theorem c5_inorder_walk {K V : Type} [LinearOrder K] (m : MapS K V)
    (h : Reachable m) (n : Nat) (hn : (entries m.root).length ≤ n) :
    walkP m.root (beginP m.root) n = entries m.root ∧
    List.Pairwise (fun a b : K => a < b)
      ((walkP m.root (beginP m.root) n).map ND.key) ∧
    m.bIter = ((beginP m.root).bind (dataAt m.root)).map ND.id := by
  have hw := walk_begin_entries m.root n hn
  have hInv := reachable_inv m h
  refine ⟨hw, ?_, ?_⟩
  · rw [hw]
    exact hInv.1
  · rw [begin_dataAt]
    exact hInv.2.1

/-- The two-element map `{1 ↦ 10, 2 ↦ 20}` built by inserting `2` then
`1`, for the C5 witness. -/
def c5map1 : MapS Nat Nat :=
  (insert ltd beqd (mapEmpty (K := Nat) (V := Nat)) 2 20).1

/-- Second stage of the C5 witness map. -/
def c5map2 : MapS Nat Nat := (insert ltd beqd c5map1 1 10).1

theorem c5_inorder_walk_witness :
    (entries c5map2.root).length ≤ 2 ∧
    (walkP c5map2.root (beginP c5map2.root) 2 = entries c5map2.root ∧
     List.Pairwise (fun a b : Nat => a < b)
       ((walkP c5map2.root (beginP c5map2.root) 2).map ND.key) ∧
     c5map2.bIter = ((beginP c5map2.root).bind (dataAt c5map2.root)).map
       ND.id) :=
  ⟨by decide,
    c5_inorder_walk c5map2
      (Reachable.ins c5map1 1 10
        (Reachable.ins mapEmpty 2 20 Reachable.empty)) 2 (by decide)⟩

/-- Claim C6: inserting a key not stored in an invariant-respecting map
(whose node count is below the `size_t` capacity) returns the fresh node's
handle — an address no existing node has — with `inserted = true`; a
subsequent `findNode` of the key reaches exactly that node carrying `(k, v)`,
and `size_` is exactly one greater. -/
theorem c6_fresh_insert {K V : Type} [LinearOrder K] (m : MapS K V) (k : K)
    (v : V) (hInv : Inv m) (hk : k ∉ keys m.root)
    (hcap : (entries m.root).length + 1 < 2 ^ 64) :
    (insert ltd beqd m k v).2.2 = true ∧
    (insert ltd beqd m k v).2.1 = m.nextId ∧
    m.nextId ∉ (entries m.root).map ND.id ∧
    (findNodeE ltd (insert ltd beqd m k v).1.root k).map
      (fun d => (d.id, d.key, d.val)) = some (m.nextId, k, v) ∧
    (insert ltd beqd m k v).1.size = m.size + 1 := by
  have hns : m.root ≠ Tree.nil → m.size ≠ 0 := by
    intro hroot h0
    have hsz := hInv.2.2.2.2
    have hlen : (entries m.root).length ≠ 0 := by
      intro hl
      exact hroot ((entries_nil_iff m.root).1 (List.length_eq_zero.1 hl))
    rw [hsz, Nat.mod_eq_of_lt (by omega)] at h0
    exact hlen h0
  rcases ins_new m k v hInv hk hns with
    ⟨L1, L2, hold, hnew, hsorted, hhandle, hflag, hsz, hnext, hbit⟩
  refine ⟨hflag, hhandle, ?_, ?_, ?_⟩
  · intro hmem
    rcases List.mem_map.1 hmem with ⟨d0, hd0, hid⟩
    exact absurd (hid ▸ hInv.2.2.2.1 d0 hd0) (lt_irrefl _)
  · have hmem : (m.nextId, k, v) ∈ items (insert ltd beqd m k v).1.root := by
      rw [hnew]
      simp
    rcases List.mem_map.1 hmem with ⟨d1, hd1, hstrip⟩
    have hid : d1.id = m.nextId := congrArg (fun e => e.1) hstrip
    have hkey : d1.key = k := congrArg (fun e => e.2.1) hstrip
    have hval : d1.val = v := congrArg (fun e => e.2.2) hstrip
    have hfind := findNodeE_mem (insert ltd beqd m k v).1.root none none k
      d1 (sorted_ordB _ hsorted) hd1 hkey
    rw [hfind]
    simp [hid, hkey, hval]
  · rw [hsz, hInv.2.2.2.2, Nat.mod_eq_of_lt (by omega),
      Nat.mod_eq_of_lt (by omega)]

/-- The singleton map `{5 ↦ 50}`, for the C6 witness. -/
def c6map1 : MapS Nat Nat :=
  (insert ltd beqd (mapEmpty (K := Nat) (V := Nat)) 5 50).1

theorem c6_fresh_insert_witness :
    Inv c6map1 ∧ 3 ∉ keys c6map1.root ∧
    (entries c6map1.root).length + 1 < 2 ^ 64 ∧
    ((insert ltd beqd c6map1 3 7).2.2 = true ∧
     (insert ltd beqd c6map1 3 7).2.1 = c6map1.nextId ∧
     c6map1.nextId ∉ (entries c6map1.root).map ND.id ∧
     (findNodeE ltd (insert ltd beqd c6map1 3 7).1.root 3).map
       (fun d => (d.id, d.key, d.val)) = some (c6map1.nextId, 3, 7) ∧
     (insert ltd beqd c6map1 3 7).1.size = c6map1.size + 1) :=
  ⟨inv_insert mapEmpty 5 50 inv_mapEmpty, by decide, by decide,
    c6_fresh_insert c6map1 3 7 (inv_insert mapEmpty 5 50 inv_mapEmpty)
      (by decide) (by decide)⟩

/-- Claim C7: on every map produced by a sequence of operations, the cached
minimum `b_iter_` is the first in-order node (equivalently the leftmost
node) — so `begin()` yields the node holding the globally smallest stored
key — and it is the end marker exactly when the tree is empty. -/
theorem c7_cached_minimum {K V : Type} [LinearOrder K] (m : MapS K V)
    (h : Reachable m) :
    m.bIter = ((entries m.root).head?).map ND.id ∧
    m.bIter = (leftmost m.root).map ND.id ∧
    (m.bIter = none ↔ m.root = Tree.nil) ∧
    (∀ i, m.bIter = some i → ∃ d ∈ entries m.root, d.id = i ∧
      ∀ k2 ∈ keys m.root, d.key ≤ k2) := by
  have hInv := reachable_inv m h
  have hs := hInv.1
  have hb := hInv.2.1
  refine ⟨hb, ?_, ?_, ?_⟩
  · rw [leftmost_head]
    exact hb
  · rw [hb]
    constructor
    · intro h0
      cases hh : (entries m.root).head? with
      | none =>
        exact (entries_nil_iff m.root).1 (List.head?_eq_none_iff.1 hh)
      | some d => rw [hh] at h0; simp at h0
    · intro h0
      rw [h0]
      rfl
  · intro i hi
    rw [hb] at hi
    cases hent : entries m.root with
    | nil => rw [hent] at hi; simp at hi
    | cons e tl =>
      rw [hent] at hi
      simp only [List.head?_cons] at hi
      have hi' : e.id = i := by
        simpa using hi
      refine ⟨e, by simp [hent], hi', ?_⟩
      intro k2 hk2
      unfold Sorted at hs
      rw [keys, hent] at hk2 hs
      simp only [List.map_cons, List.pairwise_cons] at hs
      simp only [List.map_cons, List.mem_cons] at hk2
      rcases hk2 with rfl | hk2
      · exact le_refl _
      · exact le_of_lt (hs.1 k2 hk2)

/-- First stage (`{4 ↦ 40}`) of the C7 witness map. -/
def c7map1 : MapS Nat Nat :=
  (insert ltd beqd (mapEmpty (K := Nat) (V := Nat)) 4 40).1

/-- Second stage (`{2 ↦ 20, 4 ↦ 40}`) of the C7 witness map. -/
def c7map2 : MapS Nat Nat := (insert ltd beqd c7map1 2 20).1

/-- The C7 witness map: `{2 ↦ 20}` after `erase 4`. -/
def c7map3 : MapS Nat Nat := erase ltd c7map2 4

theorem c7_cached_minimum_witness :
    c7map3.bIter = ((entries c7map3.root).head?).map ND.id ∧
    c7map3.bIter = (leftmost c7map3.root).map ND.id ∧
    (c7map3.bIter = none ↔ c7map3.root = Tree.nil) ∧
    (∀ i, c7map3.bIter = some i → ∃ d ∈ entries c7map3.root, d.id = i ∧
      ∀ k2 ∈ keys c7map3.root, d.key ≤ k2) :=
  c7_cached_minimum c7map3
    (Reachable.del c7map2 4
      (Reachable.ins c7map1 2 20
        (Reachable.ins mapEmpty 4 40 Reachable.empty)))
/-- Claim C8: `skew` and `split` preserve the stored `(id, key, value)`
triples (hence the key set) and BST order, both on the subtree and after
reattachment into any parent context; `skew` leaves the subtree unchanged
unless the left child exists at the node's level, in which case it performs
exactly the right rotation; `split` leaves the subtree unchanged unless the
right child's right child exists at the node's level, in which case it
performs exactly the left rotation and increments the promoted node's level
by exactly one. -/
theorem c8_skew_split {K V : Type} [LinearOrder K] (t : Tree K V)
    (hs : Sorted t) :
    items (skewT t) = items t ∧
    items (splitT t) = items t ∧
    Sorted (skewT t) ∧
    Sorted (splitT t) ∧
    (∀ ctx : List (Frame K V),
      items (plugAll ctx (skewT t)) = items (plugAll ctx t) ∧
      items (plugAll ctx (splitT t)) = items (plugAll ctx t)) ∧
    (∀ l d r, t = Tree.node l d r → skewT t ≠ t →
      ∃ ll ld lr, l = Tree.node ll ld lr ∧ ld.level = d.level ∧
        skewT t = Tree.node ll ld (Tree.node lr d r)) ∧
    (∀ l d r, t = Tree.node l d r → splitT t ≠ t →
      ∃ rl rd rrl rrd rrr, r = Tree.node rl rd (Tree.node rrl rrd rrr) ∧
        rrd.level = d.level ∧
        splitT t = Tree.node (Tree.node l d rl)
          { rd with level := rd.level + 1 } (Tree.node rrl rrd rrr)) := by
  have hsk := items_skewT t
  have hsp := items_splitT t
  refine ⟨hsk, hsp, ?_, ?_, ?_, ?_, ?_⟩
  · unfold Sorted at hs ⊢
    rw [keys_eq_items, hsk, ← keys_eq_items]
    exact hs
  · unfold Sorted at hs ⊢
    rw [keys_eq_items, hsp, ← keys_eq_items]
    exact hs
  · intro ctx
    exact ⟨items_plugAll_congr ctx _ _ hsk, items_plugAll_congr ctx _ _ hsp⟩
  · intro l d r ht hne
    subst ht
    cases l with
    | nil => exact absurd rfl hne
    | node ll ld lr =>
      by_cases h : d.level = ld.level
      · refine ⟨ll, ld, lr, rfl, h.symm, ?_⟩
        simp [skewT, h]
      · exfalso
        apply hne
        simp [skewT, h]
  · intro l d r ht hne
    subst ht
    cases r with
    | nil => exact absurd rfl hne
    | node rl rd rr =>
      cases rr with
      | nil => exact absurd rfl hne
      | node rrl rrd rrr =>
        by_cases h : d.level = rrd.level
        · refine ⟨rl, rd, rrl, rrd, rrr, rfl, h.symm, ?_⟩
          simp [splitT, h]
        · exfalso
          apply hne
          simp [splitT, h]

/-- A sorted two-node subtree with a horizontal left link (both levels 1),
on which `skew` performs its rotation, for the C8 witness. -/
def c8tree : Tree Nat Nat :=
  Tree.node (Tree.node Tree.nil ⟨0, 1, 10, 1⟩ Tree.nil) ⟨1, 2, 20, 1⟩
    Tree.nil

theorem c8_skew_split_witness :
    Sorted c8tree ∧
    (items (skewT c8tree) = items c8tree ∧
     items (splitT c8tree) = items c8tree ∧
     Sorted (skewT c8tree) ∧
     Sorted (splitT c8tree) ∧
     (∀ ctx : List (Frame Nat Nat),
       items (plugAll ctx (skewT c8tree)) = items (plugAll ctx c8tree) ∧
       items (plugAll ctx (splitT c8tree)) = items (plugAll ctx c8tree)) ∧
     (∀ l d r, c8tree = Tree.node l d r → skewT c8tree ≠ c8tree →
       ∃ ll ld lr, l = Tree.node ll ld lr ∧ ld.level = d.level ∧
         skewT c8tree = Tree.node ll ld (Tree.node lr d r)) ∧
     (∀ l d r, c8tree = Tree.node l d r → splitT c8tree ≠ c8tree →
       ∃ rl rd rrl rrd rrr, r = Tree.node rl rd (Tree.node rrl rrd rrr) ∧
         rrd.level = d.level ∧
         splitT c8tree = Tree.node (Tree.node l d rl)
           { rd with level := rd.level + 1 } (Tree.node rrl rrd rrr))) :=
  ⟨by unfold Sorted; decide, c8_skew_split c8tree (by unfold Sorted; decide)⟩

/-- Claim C10: inserting an already stored key has insert-or-ignore
semantics: the container state (root tree with all node identities, keys,
values and levels, the size, the cached minimum and the allocation counter)
is returned unchanged, and the stored mapped value of the key afterwards is
still the original one — the supplied value is discarded. -/
theorem c10_duplicate_frame {K V : Type} [LinearOrder K] (m : MapS K V)
    (k : K) (v : V) (d1 : ND K V) (hs : Sorted m.root)
    (hmem : d1 ∈ entries m.root) (hk1 : d1.key = k) :
    (insert ltd beqd m k v).1 = m ∧
    (findNodeE ltd (insert ltd beqd m k v).1.root k).map ND.val =
      some d1.val := by
  have h := insert_found m k v d1 hs hmem hk1
  constructor
  · rw [h]
  · rw [h]
    have hfind := findNodeE_mem m.root none none k d1 (sorted_ordB m.root hs)
      hmem hk1
    rw [hfind]
    rfl

/-- The singleton map `{6 ↦ 60}` (node `0`), for the C10 witness. -/
def c10map1 : MapS Nat Nat :=
  (insert ltd beqd (mapEmpty (K := Nat) (V := Nat)) 6 60).1

theorem c10_duplicate_frame_witness :
    Sorted c10map1.root ∧
    (⟨0, 6, 60, 1⟩ : ND Nat Nat) ∈ entries c10map1.root ∧
    ((insert ltd beqd c10map1 6 99).1 = c10map1 ∧
     (findNodeE ltd (insert ltd beqd c10map1 6 99).1.root 6).map ND.val =
       some 60) :=
  ⟨by unfold Sorted; decide, by decide,
    c10_duplicate_frame c10map1 6 99 ⟨0, 6, 60, 1⟩
      (by unfold Sorted; decide) (by decide) rfl⟩
end AA
